import Mathlib

/-!
Verification of the metadata-reconciliation and binary-forensics core of an
EXIF analysis tool.

The development shallowly embeds, directly from the TypeScript source:

* the multi-source consolidation engine
  (`consolidateExifData`, `calculateFieldConfidence`,
  `analyzeWithMultipleLibraries` from `components/multi-exif-reader.tsx`);
* the embedded-object scan (`detectEmbeddedFiles`), the hex renderers
  (`generateHexDump` from `workers/exif-worker.ts` and `generateHexData`
  from the analyzer component), and the entropy analyzer
  (`calculateEntropy`, plus the chunked scan of the hex-analyzer component);
* the suspicious-pattern scanner (`suspiciousPatterns` from
  `components/hex-analyzer.tsx`) with its six regex checks;
* the error-level-analysis computation (`performELA` from the ELA component);
* the batch summarizer (`generateBatchSummary` from `workers/exif-worker.ts`).

JavaScript numbers are modelled as `ℕ`/`ℤ`/`ℚ` with exact arithmetic
(`Math.round` is `round : ℚ → ℤ`, which rounds halves up exactly as JS does
for the non-negative values arising here); `Math.log2` forces `ℝ` and
`Real.logb 2` in the entropy section.  Metadata values are modelled by a small
tagged union `JValue` with a `serialize` function standing for
`JSON.stringify`: the consolidation code never inspects values except through
`JSON.stringify` equality, so only the serialization discipline matters.
-/

namespace ExifViewer

/-! ## Metadata values and serialization -/

/-- Tagged-union metadata value (string / number / boolean / null), the shapes
the consolidation engine compares.  The engine treats values opaquely: it only
ever compares their `JSON.stringify` serializations. -/
inductive JValue where
  | null
  | bool (b : Bool)
  | num (n : ℤ)
  | str (s : String)
deriving DecidableEq

/-- Models `JSON.stringify` on `JValue` (escaping of exotic characters is
irrelevant: the code only tests serializations for equality). -/
def serialize : JValue → String
  | .null => "null"
  | .bool true => "true"
  | .bool false => "false"
  | .num n => toString n
  | .str s => "\"" ++ s ++ "\""

/-! ## Multi-source consolidation (`components/multi-exif-reader.tsx`) -/

/-- Status of one extraction strategy (`ExifSource.status`). -/
inductive SourceStatus where
  | loading
  | success
  | error (reason : String)
deriving DecidableEq

/-- One extraction strategy's outcome: its status and its flat
field-name → value map (`ExifSource` minus the display-only fields). -/
structure ExifSource where
  status : SourceStatus
  data : List (String × JValue)
deriving DecidableEq

/-- One entry of the consolidated map (`ConsolidatedData[field]`).  The code
omits the `conflicts` key when the list is empty; we carry the list always,
with `[]` standing for the omitted key. -/
structure ConsolidatedField where
  value : JValue
  sources : List String
  confidence : ℤ
  conflicts : List (String × JValue)
deriving DecidableEq

/-- JS `Math.round (a / b)` for integers `a` and a positive `b`: round half
up, i.e. `⌊a/b + 1/2⌋ = ⌊(2a + b) / 2b⌋`.  Kept in integer arithmetic so it
evaluates by kernel reduction; `jsRoundDiv_eq_round` identifies it with
Mathlib's `round` of the rational `a / b`. -/
def jsRoundDiv (a b : ℤ) : ℤ :=
  (2 * a + b) / (2 * b)

/-- `calculateFieldConfidence`: `Math.round(agreement * 100)` where
`agreement = (k − u + 1) / k` for `k` the number of contributing pairs and `u`
the number of distinct serialized values (`multi-exif-reader.tsx:233-238`).
The fraction `100(k − u + 1) / k` is rounded through `jsRoundDiv`. -/
def calculateFieldConfidence (fd : List (String × JValue)) : ℤ :=
  let uniqueValues := (fd.map (fun p => serialize p.2)).dedup
  jsRoundDiv (100 * ((fd.length : ℤ) - (uniqueValues.length : ℤ) + 1)) (fd.length : ℤ)

/-- JS `Set.add` over a list: append the element unless already present
(insertion order preserved, as for a JS `Set`). -/
def insertUnique (l : List String) (a : String) : List String :=
  if a ∈ l then l else l ++ [a]

/-- The `allFields` set of `consolidateExifData`: every field name of every
successful source, in insertion order. -/
def allFields (sources : List (String × ExifSource)) : List String :=
  sources.foldl
    (fun acc p =>
      if p.2.status = .success then p.2.data.foldl (fun a q => insertUnique a q.1) acc
      else acc)
    []

/-- The per-field `fieldData` list of `consolidateExifData`: the
`{source, value}` pairs contributed by each successful source that reports the
field, in source-registration order. -/
def fieldData (sources : List (String × ExifSource)) (field : String) :
    List (String × JValue) :=
  sources.filterMap fun p =>
    if p.2.status = .success then (p.2.data.lookup field).map (fun v => (p.1, v))
    else none

/-- Builds one consolidated entry from a non-empty `fieldData` list:
`primaryValue` is the first pair's value, `conflicts` the later pairs whose
serialization differs from it (`multi-exif-reader.tsx:214-227`). -/
def mkConsolidatedField (primary : String × JValue) (rest : List (String × JValue)) :
    ConsolidatedField :=
  { value := primary.2
    sources := ((primary :: rest).map (fun p => p.1))
    confidence := calculateFieldConfidence (primary :: rest)
    conflicts := rest.filter (fun q => serialize q.2 != serialize primary.2) }

/-- `consolidateExifData` (`multi-exif-reader.tsx:193-231`): for each field
name reported by some successful source, the consolidated entry built from its
`fieldData` list. -/
def consolidateExifData (sources : List (String × ExifSource)) :
    List (String × ConsolidatedField) :=
  (allFields sources).filterMap fun field =>
    match fieldData sources field with
    | [] => none
    | p :: rest => some (field, mkConsolidatedField p rest)

/-- Outcome of one strategy as recorded by `analyzeWithMultipleLibraries`: a
throw is caught per-strategy and recorded as `status: error` with the entry's
`data` left at its `{}` initialization. -/
def mkSource : Except String (List (String × JValue)) → ExifSource
  | .ok d => { status := .success, data := d }
  | .error e => { status := .error e, data := [] }

/-- `analyzeWithMultipleLibraries` (`multi-exif-reader.tsx:52-185`): the four
strategies run in fixed registration order (exifr, manual, binary, xmp), each
wrapped in its own try/catch; the argument of each slot is that strategy's own
outcome. -/
def analyzeWithMultipleLibraries
    (rExifr rManual rBinary rXmp : Except String (List (String × JValue))) :
    List (String × ExifSource) :=
  [("exifr", mkSource rExifr), ("manual", mkSource rManual),
   ("binary", mkSource rBinary), ("xmp", mkSource rXmp)]

/-- Number of distinct serialized values in a `fieldData` list — the
`uniqueValues.size` of `calculateFieldConfidence`. -/
def distinctSerialized (fd : List (String × JValue)) : ℕ :=
  ((fd.map (fun p => serialize p.2)).dedup).length

/-! ## Hex encoding primitives (shared by the worker and the analyzer) -/

/-- The sixteen lowercase hex digits, as produced by JS `toString(16)`. -/
def hexDigitChars : List Char :=
  ['0', '1', '2', '3', '4', '5', '6', '7', '8', '9'] ++ ['a', 'b', 'c', 'd', 'e', 'f']

/-- Lowercase hex digit of `n % 16`. -/
def hexDigit (n : ℕ) : Char :=
  hexDigitChars.getD (n % 16) '0'

/-- `b.toString(16).padStart(2, '0')` for a byte `b < 256`: exactly two
lowercase hex characters. -/
def hexByte (b : ℕ) : List Char :=
  [hexDigit (b / 16), hexDigit b]

/-- JS `n.toString(16)`: the lowercase hex digits of `n`, without padding. -/
def natToHex (n : ℕ) : List Char :=
  if _h : n < 16 then [hexDigit n]
  else natToHex (n / 16) ++ [hexDigit (n % 16)]
decreasing_by
  exact Nat.div_lt_self (by omega) (by omega)

/-- JS `padStart(w, c)`. -/
def padLeft (c : Char) (w : ℕ) (l : List Char) : List Char :=
  List.replicate (w - l.length) c ++ l

/-- JS `padEnd(w, c)`. -/
def padRight (c : Char) (w : ℕ) (l : List Char) : List Char :=
  l ++ List.replicate (w - l.length) c

/-- JS `Array.join(sep)` for a one-character separator. -/
def joinSep (c : Char) : List (List Char) → List Char
  | [] => []
  | [x] => x
  | x :: y :: rest => x ++ c :: joinSep c (y :: rest)

/-- The ASCII column's rendering of one byte: printable 0x20–0x7E verbatim,
`'.'` otherwise. -/
def asciiOf (b : ℕ) : Char :=
  if 32 ≤ b ∧ b ≤ 126 then Char.ofNat b else '.'

/-- One rendered hex-dump row: `{offset, hex, ascii}`. -/
structure HexLine where
  offset : List Char
  hex : List Char
  ascii : List Char
deriving DecidableEq

/-- One row of the hex dump for the 16-byte chunk starting at byte offset `i`:
offset `i.toString(16).padStart(8,'0').toUpperCase()`, hex octets joined with
spaces and padded to width 47, ASCII column via `asciiOf`.  `upper` selects the
analyzer variant, whose hex octets are additionally upper-cased. -/
def mkHexRow (upper : Bool) (i : ℕ) (chunk : List ℕ) : HexLine :=
  { offset := (padLeft '0' 8 (natToHex i)).map Char.toUpper
    hex := padRight ' ' 47
      (joinSep ' ' (chunk.map fun b =>
        if upper then (hexByte b).map Char.toUpper else hexByte b))
    ascii := chunk.map asciiOf }

/-- The row loop shared by both hex renderers: 16 bytes per row, offsets
advancing by 16.  The first argument is fuel, structural so that rows evaluate
by kernel reduction; every iteration consumes at least one byte, so fuel
`data.length` (supplied by `hexDumpRows`) always suffices. -/
def hexDumpRowsGo (upper : Bool) : ℕ → ℕ → List ℕ → List HexLine
  | _, _, [] => []
  | 0, _, _ :: _ => []
  | fuel + 1, i, b :: rest =>
    mkHexRow upper i ((b :: rest).take 16)
      :: hexDumpRowsGo upper fuel (i + 16) ((b :: rest).drop 16)

/-- The row loop at fuel `data.length`, which never runs out. -/
def hexDumpRows (upper : Bool) (i : ℕ) (data : List ℕ) : List HexLine :=
  hexDumpRowsGo upper data.length i data

/-- `generateHexDump` (`workers/exif-worker.ts:332-352`): lowercase hex
octets; the caller passes the byte range to render. -/
def generateHexDump (data : List ℕ) : List HexLine :=
  hexDumpRows false 0 data

/-- `generateHexData` of the analyzer component: uppercase hex octets, capped
at the first 4096 bytes. -/
def generateHexData (data : List ℕ) : List HexLine :=
  hexDumpRows true 0 (data.take 4096)

/-- Strips the spaces of a row's hex column (the `replace(/\s/g, '')` of the
scanners), leaving the bare hex octets. -/
def stripSpaces (l : List Char) : List Char :=
  l.filter (fun c => c != ' ')

/-- Value of a hex digit character: its index in `hexDigitChars` (16 for a
non-digit, which never arises on rendered output). -/
def hexCharVal (c : Char) : ℕ :=
  hexDigitChars.indexOf c

/-- Parses a run of 2-digit hex octets back to bytes — the inverse reading of
the rendered hex column used to state the round-trip law. -/
def parseHexPairs : List Char → List ℕ
  | c1 :: c2 :: rest => (16 * hexCharVal c1 + hexCharVal c2) :: parseHexPairs rest
  | _ => []

/-- Parses a rendered hex dump back to the byte sequence it displays. -/
def parseHexDump (rows : List HexLine) : List ℕ :=
  (rows.map fun r => parseHexPairs (stripSpaces r.hex)).flatten

/-! ## Embedded-object scan (`workers/exif-worker.ts:305-330`) -/

/-- The four embedded-object signatures, in source order, as the lowercase
hex strings the worker searches for. -/
def embeddedSignatures : List (String × List Char) :=
  [("JPEG", "ffd8ffe0".toList), ("PNG", "89504e47".toList),
   ("ZIP", "504b0304".toList), ("PDF", "25504446".toList)]

/-- The hex string the scan searches: the first `min(length, 10000)` bytes,
each rendered as two lowercase hex characters, concatenated. -/
def embeddedHexString (data : List ℕ) : List Char :=
  ((data.take 10000).map hexByte).flatten

/-- First index `i` in the candidate list at which `pat` occurs in `s`. -/
def findFirstIdx (s pat : List Char) : List ℕ → Option ℕ
  | [] => none
  | i :: rest =>
    if pat.isPrefixOf (s.drop i) then some i else findFirstIdx s pat rest

/-- JS `s.indexOf(pat, start)` (with `none` for `-1`): least `i ≥ start` with
`pat` occurring in `s` at `i`. -/
def indexOfFrom (s pat : List Char) (start : ℕ) : Option ℕ :=
  findFirstIdx s pat (List.range' start (s.length + 1 - start))

/-- The worker's per-signature `while (index !== -1 && index > 0)` loop:
record `index`, then continue searching from `index + 1`.  The fuel
`s.length + 1` always suffices, since successive indices strictly increase and
are at most `s.length`. -/
def scanLoop (s pat : List Char) : ℕ → Option ℕ → List ℕ
  | _, none => []
  | 0, some _ => []
  | fuel + 1, some i =>
    if 0 < i then i :: scanLoop s pat fuel (indexOfFrom s pat (i + 1)) else []

/-- All hex-string indices the worker's loop reports for one signature. -/
def scanSignature (s pat : List Char) : List ℕ :=
  scanLoop s pat (s.length + 1) (indexOfFrom s pat 0)

/-- `detectEmbeddedFiles` (`workers/exif-worker.ts:305-330`): for each known
signature, every index its loop finds in the hex string, reported as
`{type, offset: index / 2}`.  The offset is the JS quotient `index / 2`, a
rational that is fractional when `index` is odd. -/
def detectEmbeddedFiles (data : List ℕ) : List (String × ℚ) :=
  embeddedSignatures.flatMap fun sig =>
    (scanSignature (embeddedHexString data) sig.2).map fun i : ℕ => (sig.1, (i : ℚ) / 2)

/-! ## Suspicious-pattern scanner (`components/hex-analyzer.tsx:186-238`) -/

/-- Severity levels of a suspicious pattern. -/
inductive Severity where
  | low
  | medium
  | high
  | critical
deriving DecidableEq

/-- The shape of the six regexes of `suspiciousChecks`: either a run
`c c\x7bk,\x7d` (one `c` followed by at least `k` more) or an ordered
alternation of fixed literals. -/
inductive PatternKind where
  | run (c : Char) (minRep : ℕ)
  | lits (alts : List (List Char))

/-- Length matched by a pattern at the head of `s` (regex semantics: a run is
greedy, an alternation tries its branches left to right).  `none` when the
pattern does not match at this position. -/
def matchLenAt : PatternKind → List Char → Option ℕ
  | .run c k, [] => (fun _ => none) (c, k)
  | .run c k, c1 :: rest =>
    if c1 = c then
      let n := (rest.takeWhile (fun x => x = c)).length
      if k ≤ n then some (n + 1) else none
    else none
  | .lits alts, s => (alts.find? (fun lit => lit.isPrefixOf s)).map (fun lit => lit.length)

/-- `String.matchAll` over a global regex of one of the shapes above: scan
left to right, record each match position, resume after the matched text.
Both pattern shapes always match at least one character, so every step
consumes at least one character and the structural fuel `s.length` (supplied
by `matchAll`) always suffices. -/
def matchAllGo (m : PatternKind) : ℕ → List Char → ℕ → List ℕ
  | _, [], _ => []
  | 0, _ :: _, _ => []
  | fuel + 1, c :: rest, pos =>
    match matchLenAt m (c :: rest) with
    | some len => pos :: matchAllGo m fuel (rest.drop (len - 1)) (pos + len)
    | none => matchAllGo m fuel rest (pos + 1)

/-- All match positions of a pattern in a string. -/
def matchAll (m : PatternKind) (s : List Char) : List ℕ :=
  matchAllGo m s.length s 0

/-- One reported suspicious pattern: the regex source, description, severity
and the matched positions (indices into the hex character string). -/
structure SuspiciousPattern where
  pattern : String
  description : String
  severity : Severity
  locations : List ℕ
deriving DecidableEq

/-- One entry of the scanner's fixed `suspiciousChecks` catalogue. -/
structure PatternCheck where
  pattern : String
  description : String
  severity : Severity
  kind : PatternKind

/-- The six checks of `suspiciousPatterns`, in source order, with their
lowercase regexes. -/
def suspiciousChecks : List PatternCheck :=
  [⟨"00\x7b20,\x7d", "Long sequence of null bytes (possible padding or hidden data)",
    .medium, .run '0' 20⟩,
   ⟨"ff\x7b10,\x7d", "Long sequence of 0xFF bytes (possible corruption or manipulation)",
    .medium, .run 'f' 10⟩,
   ⟨"(504b0304|504b0506)", "ZIP file signature found (possible embedded archive)",
    .high, .lits ["504b0304".toList, "504b0506".toList]⟩,
   ⟨"25504446", "PDF signature found (possible embedded document)",
    .high, .lits ["25504446".toList]⟩,
   ⟨"(4d5a|5a4d)", "Executable file signature (possible malware)",
    .critical, .lits ["4d5a".toList, "5a4d".toList]⟩,
   ⟨"d0cf11e0", "Microsoft Office document signature",
    .medium, .lits ["d0cf11e0".toList]⟩]

/-- The `fullHex` string the scanner searches: the rows' hex columns with
their spaces stripped, concatenated.  The rows come from the analyzer's
uppercase renderer. -/
def fullHexOf (lines : List HexLine) : List Char :=
  (lines.map fun l => stripSpaces l.hex).flatten

/-- `suspiciousPatterns` (`hex-analyzer.tsx:186-238`): each catalogue entry
whose regex matches somewhere in `fullHex`, with all its match positions
(positions are indices into the hex character string, not byte offsets). -/
def suspiciousPatterns (lines : List HexLine) : List SuspiciousPattern :=
  suspiciousChecks.filterMap fun ch =>
    match matchAll ch.kind (fullHexOf lines) with
    | [] => none
    | m :: ms => some ⟨ch.pattern, ch.description, ch.severity, m :: ms⟩

/-! ## Error-level analysis (`performELA` of the ELA component) -/

/-- One decoded pixel's colour channels. -/
structure RGB where
  r : ℕ
  g : ℕ
  b : ℕ
deriving DecidableEq

/-- Sum of the absolute R, G, B channel differences of pixel `i` between the
original and the recompressed image (3 × the code's `avgDiff`). -/
def sumDiff (orig comp : ℕ → RGB) (i : ℕ) : ℕ :=
  (((orig i).r : ℤ) - ((comp i).r : ℤ)).natAbs +
    (((orig i).g : ℤ) - ((comp i).g : ℤ)).natAbs +
    (((orig i).b : ℤ) - ((comp i).b : ℤ)).natAbs

/-- The amplified difference value stored for pixel `i` into the ELA canvas:
`min(255, avgDiff * 10)` written to a `Uint8ClampedArray`, which rounds to the
nearest integer (the fractional part here is always 0, 1/3 or 2/3, so
round-half-to-even never differs from `round`). -/
def amplifiedAt (orig comp : ℕ → RGB) (i : ℕ) : ℕ :=
  (min 255 (round ((10 * (sumDiff orig comp i : ℚ)) / 3))).toNat

/-- Red-channel sum of the amplified difference map over the 32 × 32 block at
`(x, y)` of a `w`-pixel-wide image (the block scan reads the red channel,
which holds the amplified value). -/
def blockSum (orig comp : ℕ → RGB) (w x y : ℕ) : ℕ :=
  ((List.range 32).map fun dy =>
    ((List.range 32).map fun dx =>
      amplifiedAt orig comp ((y + dy) * w + (x + dx))).sum).sum

/-- Mean amplified difference of the block at `(x, y)` (`blockAvg`). -/
def blockAvg (orig comp : ℕ → RGB) (w x y : ℕ) : ℚ :=
  (blockSum orig comp w x y : ℚ) / (32 * 32)

/-- The block positions `performELA` scans: `x` and `y` step by 32 from 0
while strictly below `width − 32` resp. `height − 32` (`y` outer, `x`
inner). -/
def scannedBlocks (w h : ℕ) : List (ℕ × ℕ) :=
  (((List.range h).filter fun y => y % 32 == 0 && y < h - 32).flatMap fun y =>
    ((List.range w).filter fun x => x % 32 == 0 && x < w - 32).map fun x => (x, y))

/-- One reported suspicious block. -/
structure SuspiciousArea where
  x : ℕ
  y : ℕ
  width : ℕ
  height : ℕ
  confidence : ℚ
deriving DecidableEq

/-- Result of `performELA`: overall score, suspicious blocks, narrative
verdict. -/
structure ELAResult where
  overallScore : ℚ
  suspiciousAreas : List SuspiciousArea
  analysis : String
deriving DecidableEq

/-- The four-tier narrative verdict `performELA` derives from the overall
score. -/
def elaVerdict (score : ℚ) : String :=
  if score < 10 then "Low manipulation probability. Image appears authentic."
  else if score < 30 then "Moderate manipulation probability. Some areas may have been edited."
  else if score < 60 then "High manipulation probability. Significant editing detected."
  else "Very high manipulation probability. Extensive editing detected."

/-- `performELA` (ELA component, lines 100-171), from the point where the
original and recompressed pixel buffers are in hand: per-pixel average
absolute channel difference, amplified difference map, block scan with
threshold `t`, overall score `min(100, (avgDifference / 50) * 100)`, and the
narrative verdict. -/
def performELA (orig comp : ℕ → RGB) (w h : ℕ) (t : ℚ) : ELAResult :=
  let totalDifference : ℚ :=
    ((List.range (w * h)).map fun i => (sumDiff orig comp i : ℚ) / 3).sum
  let avgDifference : ℚ := totalDifference / (w * h)
  let overallScore : ℚ := min 100 (avgDifference / 50 * 100)
  { overallScore := overallScore
    suspiciousAreas := (scannedBlocks w h).filterMap fun p =>
      if t < blockAvg orig comp w p.1 p.2 then
        some ⟨p.1, p.2, 32, 32, min 100 (blockAvg orig comp w p.1 p.2 / 255 * 100)⟩
      else none
    analysis := elaVerdict overallScore }

/-- Modelled from the spec claim, for comparison with `performELA`: a true
partition of the difference map into fixed 32 × 32 blocks, each marked
suspicious when its mean amplified difference exceeds `t` — this is the
block-scan the claim describes, covering every complete block of the map. -/
def claimPartitionBlocks (orig comp : ℕ → RGB) (w h : ℕ) (t : ℚ) : List (ℕ × ℕ) :=
  ((((List.range h).filter fun y => y % 32 == 0 && y + 32 ≤ h).flatMap fun y =>
    ((List.range w).filter fun x => x % 32 == 0 && x + 32 ≤ w).map fun x => (x, y)).filter
    fun p => t < blockAvg orig comp w p.1 p.2)

/-! ## Batch summarizer (`workers/exif-worker.ts:234-271`) -/

/-- The metadata fields the summarizer reads from one parsed file.  Each field
is optional (`undefined` when the parser did not produce it). -/
structure ExifFields where
  latitude : Option ℚ
  longitude : Option ℚ
  Make : Option String
  Model : Option String
  DateTimeOriginal : Option String
  DateTime : Option String
deriving DecidableEq

/-- Per-file outcome status as recorded by `batchProcess`. -/
inductive BatchStatus where
  | success
  | error
deriving DecidableEq

/-- One per-file outcome of `batchProcess`: a successful parse may still carry
no metadata object (`EXIF.parse` resolves `undefined` on files without
metadata). -/
structure BatchResult where
  fileName : String
  status : BatchStatus
  exifData : Option ExifFields
deriving DecidableEq

/-- JS truthiness of an optional number (`undefined`, `0` falsy). -/
def truthyNum : Option ℚ → Bool
  | none => false
  | some q => q != 0

/-- JS truthiness of an optional string (`undefined`, `""` falsy). -/
def truthyStr : Option String → Bool
  | none => false
  | some s => s != ""

/-- JS `a || b` on optional strings. -/
def jsOr (a b : Option String) : Option String :=
  if truthyStr a then a else b

/-- Lexicographic comparison of character lists, JS string `<`. -/
def charListLt : List Char → List Char → Bool
  | [], [] => false
  | [], _ :: _ => true
  | _ :: _, [] => false
  | a :: as, b :: bs => if a < b then true else if b < a then false else charListLt as bs

/-- JS `<` on strings: lexicographic comparison of the code-unit sequences
(on the scalar sequences here; the two agree on the strings at hand). -/
def jsStrLt (a b : String) : Bool :=
  charListLt a.data b.data

/-- The camera identity key `` `${Make} ${Model}` `` when both are truthy,
else `"Unknown"`. -/
def cameraKey (d : ExifFields) : String :=
  if truthyStr d.Make && truthyStr d.Model then d.Make.getD "" ++ " " ++ d.Model.getD ""
  else "Unknown"

/-- JS `cameras[camera] = (cameras[camera] || 0) + 1` on the insertion-ordered
object, modelled as an association list: bump the existing key or append it
with count 1. -/
def bumpCamera (k : String) : List (String × ℕ) → List (String × ℕ)
  | [] => [(k, 1)]
  | (k', n) :: rest =>
    if k' = k then (k', n + 1) :: rest else (k', n) :: bumpCamera k rest

/-- The summary record built by `generateBatchSummary`. -/
structure BatchSummary where
  totalFiles : ℕ
  successful : ℕ
  errors : ℕ
  withGPS : ℕ
  cameras : List (String × ℕ)
  earliest : Option String
  latest : Option String
deriving DecidableEq

/-- The GPS update of one `forEach` iteration: count the file when both
coordinates are truthy. -/
def gpsStep (acc : BatchSummary) (d : ExifFields) : BatchSummary :=
  if truthyNum d.latitude && truthyNum d.longitude then
    { acc with withGPS := acc.withGPS + 1 }
  else acc

/-- The camera-table update of one `forEach` iteration. -/
def cameraStep (acc : BatchSummary) (d : ExifFields) : BatchSummary :=
  { acc with cameras := bumpCamera (cameraKey d) acc.cameras }

/-- The `earliest` update: `if (!earliest || dateStr < earliest)`. -/
def minStep (acc : Option String) (s : String) : Option String :=
  match acc with
  | none => some s
  | some m => if jsStrLt s m then some s else some m

/-- The `latest` update: `if (!latest || dateStr > latest)`. -/
def maxStep (acc : Option String) (s : String) : Option String :=
  match acc with
  | none => some s
  | some m => if jsStrLt m s then some s else some m

/-- The date-range update of one `forEach` iteration: only a truthy
`DateTimeOriginal || DateTime` contributes. -/
def dateStep (acc : BatchSummary) (d : ExifFields) : BatchSummary :=
  match jsOr d.DateTimeOriginal d.DateTime with
  | some ds =>
    if ds ≠ "" then
      { acc with earliest := minStep acc.earliest ds, latest := maxStep acc.latest ds }
    else acc
  | none => acc

/-- One iteration of the summarizer's `forEach`: files with
`status === 'success' && exifData` contribute to the GPS count, the camera
table, and the lexical date range, in that order; all other files leave the
accumulator untouched. -/
def summaryStep (acc : BatchSummary) (r : BatchResult) : BatchSummary :=
  match r.status, r.exifData with
  | .success, some d => dateStep (cameraStep (gpsStep acc d) d) d
  | _, _ => acc

/-- Combines a camera count already in the table with the number of further
occurrences: the key is present in the final table iff it was counted at
least once. -/
def addCount : Option ℕ → ℕ → Option ℕ
  | none, 0 => none
  | none, n + 1 => some (n + 1)
  | some m, n => some (m + n)

/-- `generateBatchSummary` (`workers/exif-worker.ts:234-271`). -/
def generateBatchSummary (results : List BatchResult) : BatchSummary :=
  results.foldl summaryStep
    { totalFiles := results.length
      successful := (results.filter fun r => r.status == .success).length
      errors := (results.filter fun r => r.status == .error).length
      withGPS := 0
      cameras := []
      earliest := none
      latest := none }

/-- The date string a metadata object contributes to the range, when truthy
(the summarizer's `dateStr`). -/
def fieldDate (d : ExifFields) : Option String :=
  match jsOr d.DateTimeOriginal d.DateTime with
  | some ds => if ds ≠ "" then some ds else none
  | none => none

/-- The date string one file contributes to the range, when it is a
successful file with a metadata object and a truthy date. -/
def dateStrOf (r : BatchResult) : Option String :=
  match r.status, r.exifData with
  | .success, some d => fieldDate d
  | _, _ => none

/-- The successful-with-metadata results the summarizer's `forEach` body
processes. -/
def contributing (results : List BatchResult) : List (ExifFields) :=
  results.filterMap fun r =>
    match r.status, r.exifData with
    | .success, some d => some d
    | _, _ => none

/-! ## Entropy analyzer (`workers/exif-worker.ts:287-303` and the chunked
scan of `components/hex-analyzer.tsx:241-298`) -/

/-- `calculateEntropy`: Shannon entropy over the byte-value frequencies, only
the frequencies `> 0` contributing (`entropy -= p * Math.log2(p)`). -/
noncomputable def calculateEntropy (data : List ℕ) : ℝ :=
  -(∑ b ∈ Finset.range 256,
    if 0 < data.count b then
      ((data.count b : ℝ) / data.length) * Real.logb 2 ((data.count b : ℝ) / data.length)
    else 0)

/-- The per-chunk entropy accumulation of the hex-analyzer's
`entropyAnalysis`: the loop runs over the chunk's *bytes* (not its byte
values), so each value's term is accumulated once per occurrence. -/
noncomputable def chunkEntropy (chunk : List ℕ) : ℝ :=
  -((chunk.map fun b =>
    if 0 < ((chunk.count b : ℝ) / chunk.length) then
      ((chunk.count b : ℝ) / chunk.length) * Real.logb 2 ((chunk.count b : ℝ) / chunk.length)
    else 0).sum)

/-- The chunk start offsets of the hex-analyzer's entropy scan: multiples of
256 below the byte length. -/
def chunkStarts (len : ℕ) : List ℕ :=
  (List.range len).filter fun i => i % 256 == 0

/-- A chunk entry is pushed to `suspiciousAreas` exactly when the chunk starts
below the length and its entropy exceeds 7.8. -/
def isSuspiciousChunkEntry (data : List ℕ) (i : ℕ) : Prop :=
  i ∈ chunkStarts data.length ∧ (7.8 : ℝ) < chunkEntropy ((data.drop i).take 256)

/-! ## Small sample inputs used by the witnesses and counterexamples -/

/-- Two successful strategies agreeing on `Make` and disagreeing on `ISO`. -/
def demoSources : List (String × ExifSource) :=
  [("exifr", ⟨.success, [("Make", .str "Canon"), ("ISO", .num 100)]⟩),
   ("manual", ⟨.success, [("Make", .str "Canon"), ("ISO", .num 200)]⟩)]

/-- The consolidated entry `demoSources` produces for `Make`. -/
def demoCfMake : ConsolidatedField :=
  ⟨.str "Canon", ["exifr", "manual"], 100, []⟩

/-- The consolidated entry `demoSources` produces for `ISO`. -/
def demoCfISO : ConsolidatedField :=
  ⟨.num 100, ["exifr", "manual"], 50, [("manual", .num 200)]⟩

/-- A buffer that begins with the JPEG signature and repeats it at byte
offset 4. -/
def jpegTwiceBuf : List ℕ :=
  [255, 216, 255, 224, 255, 216, 255, 224]

/-- The 100-byte all-zero buffer with the ZIP signature at byte offset 40
(the spec's end-to-end scenario). -/
def zipBuf : List ℕ :=
  List.replicate 40 0 ++ [80, 75, 3, 4] ++ List.replicate 56 0

/-- A buffer whose hex string contains the ZIP signature only at the odd hex
index 1 (straddling the boundary between bytes 0 and 1). -/
def oddZipBuf : List ℕ :=
  [5, 4, 176, 48, 64]

/-- The ZIP signature's bytes. -/
def zipSigBytes : List ℕ :=
  [80, 75, 3, 4]

/-- An all-white original image (any size). -/
def elaOrig : ℕ → RGB := fun _ => ⟨255, 255, 255⟩

/-- A recompressed 64 × 64 image that differs from the all-white original
exactly on the bottom-right 32 × 32 block (pixel index `i` has column
`i % 64` and row `i / 64`). -/
def elaComp : ℕ → RGB := fun i =>
  if 32 ≤ i % 64 ∧ 32 ≤ i / 64 then ⟨0, 0, 0⟩ else ⟨255, 255, 255⟩

/-- Batch outcomes exercising the summarizer's edge cases: one successful file
with no metadata object, one at latitude 0, and one with full metadata. -/
def demoBatch : List BatchResult :=
  [⟨"a.jpg", .success, none⟩,
   ⟨"b.jpg", .success, some ⟨some 0, some 10, some "Canon", some "EOS R5",
     some "2021:05:05 10:00:00", none⟩⟩,
   ⟨"c.jpg", .success, some ⟨some 1, some 10, some "Nikon", some "Z9",
     some "2019:05:05 10:00:00", none⟩⟩]

/-- The spec's batch example: three successful files with cameras
Canon EOS R5, Canon EOS R5, Nikon Z9. -/
def demoBatchCameras : List BatchResult :=
  [⟨"1.jpg", .success, some ⟨none, none, some "Canon", some "EOS R5", some "2020:01:01 00:00:00", none⟩⟩,
   ⟨"2.jpg", .success, some ⟨none, none, some "Canon", some "EOS R5", some "2022:01:01 00:00:00", none⟩⟩,
   ⟨"3.jpg", .success, some ⟨none, none, some "Nikon", some "Z9", some "2021:01:01 00:00:00", none⟩⟩]

end ExifViewer

namespace ExifViewer

/-! ## Consolidation lemmas -/

/-- `jsRoundDiv` is `round` of the fraction: JS `Math.round x` is exactly
`⌊x + 1/2⌋`. -/
theorem jsRoundDiv_eq_round (a b : ℤ) (hb : 0 < b) :
    jsRoundDiv a b = round ((a : ℚ) / (b : ℚ)) := by
  have hbQ : ((b : ℚ)) ≠ 0 := Int.cast_ne_zero.mpr (ne_of_gt hb)
  rw [round_eq, jsRoundDiv]
  have h2b : (((2 * b).toNat : ℕ) : ℤ) = 2 * b := Int.toNat_of_nonneg (by omega)
  have h2bQ : (((2 * b).toNat : ℕ) : ℚ) = 2 * (b : ℚ) := by
    exact_mod_cast congrArg (fun z : ℤ => (z : ℚ)) h2b
  have harg : (a : ℚ) / (b : ℚ) + 1 / 2
      = (((2 * a + b : ℤ)) : ℚ) / (((2 * b).toNat : ℕ) : ℚ) := by
    rw [h2bQ]
    push_cast
    field_simp
    ring
  rw [harg, Rat.floor_intCast_div_natCast, h2b]

/-- Unfolds one step of an association-list lookup. -/
theorem lookup_cons_pair {β : Type} (f g : String) (v : β) (L : List (String × β)) :
    List.lookup f ((g, v) :: L) = if f = g then some v else List.lookup f L := by
  by_cases h : f = g
  · subst h
    simp [List.lookup]
  · have hbe : (f == g) = false := beq_eq_false_iff_ne.mpr h
    simp [List.lookup, hbe, h]

/-- Decomposing a `filterMap` that produced a cons: the list splits at the
first element the function keeps. -/
theorem filterMap_eq_cons_split {α β : Type} (g : α → Option β) :
    ∀ (l : List α) (p : β) (rest : List β), l.filterMap g = p :: rest →
      ∃ pre x post, l = pre ++ x :: post ∧ g x = some p ∧ ∀ y ∈ pre, g y = none := by
  intro l
  induction l with
  | nil => intro p rest h; simp [List.filterMap] at h
  | cons a l ih =>
    intro p rest h
    rw [List.filterMap_cons] at h
    cases ha : g a with
    | none =>
      rw [ha] at h
      obtain ⟨pre, x, post, hl, hx, hpre⟩ := ih p rest h
      refine ⟨a :: pre, x, post, by simp [hl], hx, ?_⟩
      intro y hy
      rcases List.mem_cons.mp hy with hy | hy
      · rw [hy]; exact ha
      · exact hpre y hy
    | some b =>
      rw [ha] at h
      obtain ⟨hb, hrest⟩ := List.cons.inj h
      exact ⟨[], a, l, rfl, by rw [ha, hb], by simp⟩

/-- Looking a field up in the consolidated map yields exactly the entry built
from that field's `fieldData` list, which is then non-empty. -/
theorem consolidate_lookup (sources : List (String × ExifSource)) (f : String)
    (cf : ConsolidatedField)
    (h : (consolidateExifData sources).lookup f = some cf) :
    ∃ p rest, fieldData sources f = p :: rest ∧ cf = mkConsolidatedField p rest := by
  unfold consolidateExifData at h
  generalize allFields sources = fields at h
  induction fields with
  | nil => simp [List.filterMap] at h
  | cons g gs ih =>
    rw [List.filterMap_cons] at h
    cases hg : fieldData sources g with
    | nil => rw [hg] at h; exact ih h
    | cons p rest =>
      rw [hg] at h
      rw [lookup_cons_pair] at h
      by_cases hfg : f = g
      · rw [if_pos hfg] at h
        subst hfg
        exact ⟨p, rest, hg, (Option.some.inj h).symm⟩
      · rw [if_neg hfg] at h
        exact ih h

/-- `dedup` of a non-empty constant list is the singleton. -/
theorem dedup_const {α : Type} [DecidableEq α] (a : α) :
    ∀ l : List α, l ≠ [] → (∀ x ∈ l, x = a) → l.dedup = [a] := by
  intro l
  induction l with
  | nil => intro h; exact absurd rfl h
  | cons x xs ih =>
    intro _ hall
    have hx : x = a := hall x (by simp)
    subst hx
    cases xs with
    | nil => simp
    | cons y ys =>
      have hy : y = x := by
        have := hall y (by simp)
        have hx2 := hall x (by simp)
        rw [this, hx2]
      have hmem : x ∈ y :: ys := by rw [hy]; simp
      rw [List.dedup_cons_of_mem hmem]
      exact ih (by simp) fun z hz => hall z (List.mem_cons_of_mem _ hz)

/-- A filter producing `[]` on a `bne` serialization test means every element
serializes equally. -/
theorem conflicts_nil_iff (pv : JValue) (rest : List (String × JValue)) :
    rest.filter (fun q => serialize q.2 != serialize pv) = [] ↔
      ∀ q ∈ rest, serialize q.2 = serialize pv := by
  rw [List.filter_eq_nil_iff]
  constructor
  · intro h q hq
    have := h q hq
    simpa using this
  · intro h q hq
    simpa using h q hq

/-! ## C1 -/

/-- C1: every consolidated entry's confidence is
`round(100 × (k − u + 1) / k)` for `k` the number of contributing sources and
`u` the number of distinct serialized values; in particular identical values
give confidence 100 with no conflicts, and two disagreeing sources give
confidence 50. -/
theorem C1_confidence_formula (sources : List (String × ExifSource)) (f : String)
    (cf : ConsolidatedField)
    (h : (consolidateExifData sources).lookup f = some cf) :
    cf.confidence =
      round ((100 : ℚ) * (((fieldData sources f).length : ℚ)
          - (distinctSerialized (fieldData sources f) : ℚ) + 1)
        / ((fieldData sources f).length : ℚ))
    ∧ (∀ v : JValue, (∀ q ∈ fieldData sources f, q.2 = v) →
        cf.confidence = 100 ∧ cf.conflicts = [])
    ∧ (∀ a b : String × JValue, fieldData sources f = [a, b] →
        serialize a.2 ≠ serialize b.2 → cf.confidence = 50) := by
  obtain ⟨p, rest, hfd, hcf⟩ := consolidate_lookup sources f cf h
  subst hcf
  rw [hfd]
  have hk : (0 : ℤ) < ((p :: rest).length : ℤ) := by
    exact_mod_cast Nat.succ_pos rest.length
  refine ⟨?_, ?_, ?_⟩
  · show calculateFieldConfidence (p :: rest) = _
    unfold calculateFieldConfidence distinctSerialized
    rw [jsRoundDiv_eq_round _ _ hk]
    congr 1
    push_cast
    ring
  · intro v hv
    constructor
    · show calculateFieldConfidence (p :: rest) = 100
      unfold calculateFieldConfidence
      have hded : ((p :: rest).map (fun q => serialize q.2)).dedup = [serialize v] := by
        refine dedup_const _ _ (by simp) ?_
        intro x hx
        obtain ⟨q, hq, hqx⟩ := List.mem_map.mp hx
        rw [← hqx, hv q hq]
      rw [hded]
      show jsRoundDiv (100 * (((p :: rest).length : ℤ) - (([serialize v].length : ℕ) : ℤ) + 1))
        ((p :: rest).length : ℤ) = 100
      rw [show (100 : ℤ) * (((p :: rest).length : ℤ) - (([serialize v].length : ℕ) : ℤ) + 1)
          = 100 * ((p :: rest).length : ℤ) by simp]
      rw [jsRoundDiv_eq_round _ _ hk]
      have hkQ : (((p :: rest).length : ℤ) : ℚ) ≠ 0 :=
        Int.cast_ne_zero.mpr (ne_of_gt hk)
      have h1 : ((100 * ((p :: rest).length : ℤ) : ℤ) : ℚ) / ((((p :: rest).length : ℤ)) : ℚ)
          = 100 := by
        push_cast
        field_simp
      rw [h1]
      norm_num
    · show (rest.filter fun q => serialize q.2 != serialize p.2) = []
      rw [conflicts_nil_iff]
      intro q hq
      rw [hv q (List.mem_cons_of_mem _ hq), hv p (by simp)]
  · intro a b hab hne
    obtain ⟨hpa, hrb⟩ : p = a ∧ rest = [b] :=
      ⟨List.cons.inj hab |>.1, List.cons.inj hab |>.2⟩
    subst hpa hrb
    show calculateFieldConfidence [p, b] = 50
    unfold calculateFieldConfidence
    have hded : (([p, b]).map (fun q => serialize q.2)).dedup
        = [serialize p.2, serialize b.2] := by
      simp only [List.map_cons, List.map_nil]
      rw [List.dedup_cons_of_not_mem (by simpa using hne),
        List.dedup_cons_of_not_mem (List.not_mem_nil _), List.dedup_nil]
    rw [hded]
    show jsRoundDiv
        (100 * ((([p, b].length : ℕ) : ℤ) - (([serialize p.2, serialize b.2].length : ℕ) : ℤ) + 1))
        (([p, b].length : ℕ) : ℤ) = 50
    simp only [List.length_cons, List.length_nil]
    decide

/-- Witness for C1 at `demoSources`: the agreeing field gets confidence 100
with no conflicts, the two-way disagreement gets confidence 50. -/
theorem C1_witness :
    (demoCfMake.confidence = 100 ∧ demoCfMake.conflicts = []) ∧ demoCfISO.confidence = 50 :=
  ⟨(C1_confidence_formula demoSources "Make" demoCfMake (by decide)).2.1
      (.str "Canon") (by decide),
   (C1_confidence_formula demoSources "ISO" demoCfISO (by decide)).2.2
      ("exifr", .num 100) ("manual", .num 200) (by decide) (by decide)⟩

/-! ## C2 -/

/-- C2: every consolidated entry's `value` is the value reported by the
first-registered successful source that supplies the field (no earlier
successful source supplies it), its first listed source is that source's name,
and `conflicts` is empty iff all pairs collected for the field agree on the
serialized value. -/
theorem C2_chosen_value_first_source (sources : List (String × ExifSource)) (f : String)
    (cf : ConsolidatedField)
    (h : (consolidateExifData sources).lookup f = some cf) :
    (∃ pre x post, sources = pre ++ x :: post ∧ x.2.status = .success ∧
      x.2.data.lookup f = some cf.value ∧ cf.sources.head? = some x.1 ∧
      ∀ y ∈ pre, y.2.status = .success → y.2.data.lookup f = none)
    ∧ (cf.conflicts = [] ↔
        ∀ q ∈ fieldData sources f, serialize q.2 = serialize cf.value) := by
  obtain ⟨p, rest, hfd, hcf⟩ := consolidate_lookup sources f cf h
  subst hcf
  constructor
  · obtain ⟨pre, x, post, hsrc, hx, hpre⟩ :=
      filterMap_eq_cons_split _ sources p rest hfd
    by_cases hst : x.2.status = .success
    · rw [if_pos hst] at hx
      obtain ⟨v, hv, hpv⟩ := Option.map_eq_some'.mp hx
      refine ⟨pre, x, post, hsrc, hst, ?_, ?_, ?_⟩
      · show x.2.data.lookup f = some (mkConsolidatedField p rest).value
        rw [hv, ← hpv]
        rfl
      · show ((p :: rest).map (fun q => q.1)).head? = some x.1
        rw [← hpv]
        rfl
      · intro y hy hys
        have hnone := hpre y hy
        rw [if_pos hys] at hnone
        exact Option.map_eq_none'.mp hnone
    · rw [if_neg hst] at hx
      exact absurd hx (by simp)
  · show (rest.filter fun q => serialize q.2 != serialize p.2) = [] ↔ _
    rw [conflicts_nil_iff, hfd]
    constructor
    · intro hall q hq
      rcases List.mem_cons.mp hq with hq | hq
      · rw [hq]
        rfl
      · exact hall q hq
    · intro hall q hq
      exact hall q (List.mem_cons_of_mem _ hq)

/-- Witness for C2 at `demoSources` and the conflicted field `ISO`. -/
theorem C2_witness :
    (∃ pre x post, demoSources = pre ++ x :: post ∧ x.2.status = .success ∧
      x.2.data.lookup "ISO" = some demoCfISO.value ∧ demoCfISO.sources.head? = some x.1 ∧
      ∀ y ∈ pre, y.2.status = .success → y.2.data.lookup "ISO" = none)
    ∧ (demoCfISO.conflicts = [] ↔
        ∀ q ∈ fieldData demoSources "ISO", serialize q.2 = serialize demoCfISO.value) :=
  C2_chosen_value_first_source demoSources "ISO" demoCfISO (by decide)

/-! ## C3 -/

/-- `allFields` ignores sources whose status is not `success`. -/
theorem allFields_filter_success (sources : List (String × ExifSource)) :
    allFields (sources.filter fun p => p.2.status == .success) = allFields sources := by
  unfold allFields
  generalize ([] : List String) = acc
  induction sources generalizing acc with
  | nil => rfl
  | cons a l ih =>
    by_cases hs : a.2.status = .success
    · rw [List.filter_cons, if_pos (by simpa using hs)]
      simp only [List.foldl_cons]
      exact ih _
    · rw [List.filter_cons, if_neg (by simpa using hs)]
      simp only [List.foldl_cons, if_neg hs]
      exact ih _

/-- `fieldData` ignores sources whose status is not `success`. -/
theorem fieldData_filter_success (sources : List (String × ExifSource)) (f : String) :
    fieldData (sources.filter fun p => p.2.status == .success) f = fieldData sources f := by
  unfold fieldData
  induction sources with
  | nil => rfl
  | cons a l ih =>
    by_cases hs : a.2.status = .success
    · rw [List.filter_cons, if_pos (by simpa using hs)]
      rw [List.filterMap_cons, List.filterMap_cons, ih]
    · rw [List.filter_cons, if_neg (by simpa using hs)]
      rw [List.filterMap_cons, if_neg hs]
      exact ih

/-- C3: a throwing strategy is recorded as `status = error(reason)` with no
fields and is excluded from consolidation (consolidating is the same as
consolidating the successful sources only); zero successful strategies yield
the empty consolidated map, not an error; and one strategy's outcome never
affects the sibling strategies' entries — all four are always present. -/
theorem C3_failure_isolation :
    (∀ sources : List (String × ExifSource),
      consolidateExifData sources
        = consolidateExifData (sources.filter fun p => p.2.status == .success))
    ∧ (∀ e1 e2 e3 e4 : String,
      consolidateExifData (analyzeWithMultipleLibraries
        (.error e1) (.error e2) (.error e3) (.error e4)) = [])
    ∧ (∀ r1 r1' r2 r3 r4 : Except String (List (String × JValue)),
      (analyzeWithMultipleLibraries r1 r2 r3 r4).tail
        = (analyzeWithMultipleLibraries r1' r2 r3 r4).tail)
    ∧ (∀ (e : String) (r2 r3 r4 : Except String (List (String × JValue))),
      (analyzeWithMultipleLibraries (.error e) r2 r3 r4).head?
        = some ("exifr", ⟨.error e, []⟩))
    ∧ (∀ r1 r2 r3 r4 : Except String (List (String × JValue)),
      (analyzeWithMultipleLibraries r1 r2 r3 r4).length = 4) := by
  refine ⟨?_, ?_, ?_, ?_, ?_⟩
  · intro sources
    symm
    unfold consolidateExifData
    rw [allFields_filter_success]
    congr 1
    funext field
    rw [fieldData_filter_success]
  · intro e1 e2 e3 e4
    rfl
  · intro r1 r1' r2 r3 r4
    rfl
  · intro e r2 r3 r4
    rfl
  · intro r1 r2 r3 r4
    rfl

/-! ## Embedded-object scan lemmas -/

/-- A successful `findFirstIdx` over a candidate range returns the least
matching index in the range. -/
theorem findFirstIdx_range'_spec (s pat : List Char) :
    ∀ (n start i : ℕ), findFirstIdx s pat (List.range' start n) = some i →
      start ≤ i ∧ i < start + n ∧ pat.isPrefixOf (s.drop i) = true ∧
        ∀ j, start ≤ j → j < i → pat.isPrefixOf (s.drop j) = false := by
  intro n
  induction n with
  | zero => intro start i h; simp [findFirstIdx] at h
  | succ n ih =>
    intro start i h
    rw [List.range'_succ] at h
    unfold findFirstIdx at h
    by_cases hm : pat.isPrefixOf (s.drop start) = true
    · rw [if_pos hm] at h
      obtain rfl := Option.some.inj h
      exact ⟨le_refl _, by omega, hm, fun j h1 h2 => absurd h2 (by omega)⟩
    · rw [if_neg hm] at h
      obtain ⟨h1, h2, h3, h4⟩ := ih (start + 1) i h
      refine ⟨by omega, by omega, h3, ?_⟩
      intro j hj1 hj2
      rcases Nat.eq_or_lt_of_le hj1 with hj | hj
      · rw [← hj]
        simp only [Bool.not_eq_true] at hm
        exact hm
      · exact h4 j hj hj2

/-- A failed `findFirstIdx` over a candidate range means no index in the
range matches. -/
theorem findFirstIdx_range'_none (s pat : List Char) :
    ∀ (n start : ℕ), findFirstIdx s pat (List.range' start n) = none →
      ∀ j, start ≤ j → j < start + n → pat.isPrefixOf (s.drop j) = false := by
  intro n
  induction n with
  | zero => intro start h j h1 h2; omega
  | succ n ih =>
    intro start h j h1 h2
    rw [List.range'_succ] at h
    unfold findFirstIdx at h
    by_cases hm : pat.isPrefixOf (s.drop start) = true
    · rw [if_pos hm] at h
      exact absurd h (by simp)
    · rw [if_neg hm] at h
      rcases Nat.eq_or_lt_of_le h1 with hj | hj
      · rw [← hj]
        simp only [Bool.not_eq_true] at hm
        exact hm
      · exact ih (start + 1) h j hj (by omega)

/-- A non-empty pattern can only match strictly inside the string. -/
theorem match_lt_length (s pat : List Char) (hpat : pat ≠ [])
    (i : ℕ) (h : pat.isPrefixOf (s.drop i) = true) : i < s.length := by
  have hp := List.isPrefixOf_iff_prefix.mp h
  have hlen := hp.length_le
  rw [List.length_drop] at hlen
  have : 0 < pat.length := List.length_pos.mpr hpat
  omega

/-- Every index the scan loop reports is positive. -/
theorem scanLoop_pos (s pat : List Char) :
    ∀ (fuel : ℕ) (oi : Option ℕ) (i : ℕ), i ∈ scanLoop s pat fuel oi → 0 < i := by
  intro fuel
  induction fuel with
  | zero => intro oi i h; cases oi <;> simp [scanLoop] at h
  | succ fuel ih =>
    intro oi i h
    cases oi with
    | none => simp [scanLoop] at h
    | some j =>
      unfold scanLoop at h
      by_cases hj : 0 < j
      · rw [if_pos hj] at h
        rcases List.mem_cons.mp h with rfl | h
        · exact hj
        · exact ih _ i h
      · rw [if_neg hj] at h
        simp at h

/-- Completeness of the scan loop: starting the search at a positive `start`
with enough fuel, every match at or after `start` is reported. -/
theorem scanLoop_complete (s pat : List Char) (hpat : pat ≠ []) :
    ∀ (fuel start : ℕ), s.length + 1 ≤ fuel + start → 0 < start →
      ∀ i, start ≤ i → pat.isPrefixOf (s.drop i) = true →
        i ∈ scanLoop s pat fuel (indexOfFrom s pat start) := by
  intro fuel
  induction fuel with
  | zero =>
    intro start hfuel _ i hi hm
    exact absurd (match_lt_length s pat hpat i hm) (by omega)
  | succ fuel ih =>
    intro start hfuel hstart i hi hm
    have hilen : i < s.length := match_lt_length s pat hpat i hm
    cases hidx : indexOfFrom s pat start with
    | none =>
      exfalso
      unfold indexOfFrom at hidx
      have := findFirstIdx_range'_none s pat _ _ hidx i hi (by omega)
      rw [hm] at this
      exact Bool.true_eq_false.mp this
    | some j =>
      unfold indexOfFrom at hidx
      obtain ⟨hj1, _, hjm, hjmin⟩ := findFirstIdx_range'_spec s pat _ _ _ hidx
      have hj0 : 0 < j := by omega
      unfold scanLoop
      rw [if_pos hj0]
      rcases Nat.lt_trichotomy i j with hij | hij | hij
      · exfalso
        have := hjmin i hi hij
        rw [hm] at this
        exact Bool.true_eq_false.mp this
      · exact hij ▸ List.mem_cons_self _ _
      · refine List.mem_cons_of_mem _ (ih (j + 1) (by omega) (by omega) i (by omega) hm)

/-- Completeness of `scanSignature` when the signature does not match at the
very start of the string: every match at a positive index is reported. -/
theorem scanSignature_complete (s pat : List Char) (hpat : pat ≠ [])
    (hnot0 : pat.isPrefixOf s = false) :
    ∀ i, 0 < i → pat.isPrefixOf (s.drop i) = true → i ∈ scanSignature s pat := by
  intro i hi hm
  unfold scanSignature
  have hilen : i < s.length := match_lt_length s pat hpat i hm
  cases hidx : indexOfFrom s pat 0 with
  | none =>
    exfalso
    unfold indexOfFrom at hidx
    have := findFirstIdx_range'_none s pat _ _ hidx i (by omega) (by omega)
    rw [hm] at this
    exact Bool.true_eq_false.mp this
  | some j =>
    unfold indexOfFrom at hidx
    obtain ⟨_, _, hjm, hjmin⟩ := findFirstIdx_range'_spec s pat _ _ _ hidx
    have hj0 : 0 < j := by
      rcases Nat.eq_zero_or_pos j with hj | hj
      · subst hj
        rw [List.drop_zero] at hjm
        rw [hjm] at hnot0
        exact absurd hnot0 (by simp)
      · exact hj
    show i ∈ scanLoop s pat (s.length + 1) (some j)
    unfold scanLoop
    rw [if_pos hj0]
    rcases Nat.lt_trichotomy i j with hij | hij | hij
    · exfalso
      have := hjmin i (by omega) hij
      rw [hm] at this
      exact Bool.true_eq_false.mp this
    · exact hij ▸ List.mem_cons_self _ _
    · exact List.mem_cons_of_mem _
        (scanLoop_complete s pat hpat s.length (j + 1) (by omega) (by omega) i (by omega) hm)

/-- Dropping `o` bytes of the input drops `2 o` characters of its hex
rendering. -/
theorem hexFlatten_drop (o : ℕ) :
    ∀ l : List ℕ, ((l.map hexByte).flatten).drop (2 * o) = (((l.drop o).map hexByte)).flatten := by
  induction o with
  | zero => intro l; simp
  | succ o ih =>
    intro l
    cases l with
    | nil => simp
    | cons b l =>
      show ((hexByte b ++ (l.map hexByte).flatten)).drop (2 * (o + 1)) = _
      rw [show 2 * (o + 1) = 2 * o + 2 by ring]
      show (hexDigit (b / 16) :: hexDigit b :: (l.map hexByte).flatten).drop (2 * o + 2) = _
      rw [List.drop_succ_cons, List.drop_succ_cons, ih l]
      simp

/-- Hex rendering preserves byte-level prefixes. -/
theorem hexFlatten_prefix_mono (u w : List ℕ) (h : u <+: w) :
    ((u.map hexByte)).flatten <+: ((w.map hexByte)).flatten := by
  obtain ⟨t, rfl⟩ := h
  exact ⟨(t.map hexByte).flatten, by simp⟩

/-- `hexDigit` is injective below 16. -/
theorem hexDigit_inj : ∀ m < 16, ∀ n < 16, hexDigit m = hexDigit n → m = n := by
  decide

/-- `hexByte` is injective on bytes. -/
theorem hexByte_inj (b c : ℕ) (hb : b < 256) (hc : c < 256)
    (h : hexByte b = hexByte c) : b = c := by
  unfold hexByte at h
  have h1 : hexDigit (b / 16) = hexDigit (c / 16) := (List.cons.inj h).1
  have h2 : hexDigit b = hexDigit c := (List.cons.inj (List.cons.inj h).2).1
  have hd1 : b / 16 = c / 16 :=
    hexDigit_inj _ (by omega) _ (by omega) h1
  have h2' : hexDigit (b % 16) = hexDigit (c % 16) := by
    unfold hexDigit
    rw [Nat.mod_mod_of_dvd _ (dvd_refl 16), Nat.mod_mod_of_dvd _ (dvd_refl 16)]
    exact h2
  have hd2 : b % 16 = c % 16 :=
    hexDigit_inj _ (by omega) _ (by omega) h2'
  omega

/-- A hex-level prefix between byte renderings reflects to a byte-level
prefix (bytes below 256). -/
theorem hexFlatten_prefix_back :
    ∀ (u w : List ℕ), (∀ b ∈ u, b < 256) → (∀ b ∈ w, b < 256) →
      ((u.map hexByte)).flatten <+: ((w.map hexByte)).flatten → u <+: w := by
  intro u
  induction u with
  | nil => intro w _ _ _; exact List.nil_prefix
  | cons b u ih =>
    intro w hu hw h
    cases w with
    | nil =>
      exfalso
      have := h.length_le
      simp [hexByte] at this
    | cons c w =>
      have hstep : hexDigit (b / 16) = hexDigit (c / 16) ∧ hexDigit b = hexDigit c ∧
          ((u.map hexByte)).flatten <+: ((w.map hexByte)).flatten := by
        have h' : hexDigit (b / 16) :: hexDigit b :: ((u.map hexByte)).flatten
            <+: hexDigit (c / 16) :: hexDigit c :: ((w.map hexByte)).flatten := h
        rw [List.cons_prefix_cons] at h'
        obtain ⟨e1, h'⟩ := h'
        rw [List.cons_prefix_cons] at h'
        obtain ⟨e2, h'⟩ := h'
        exact ⟨e1, e2, h'⟩
      obtain ⟨e1, e2, hrest⟩ := hstep
      have hbc : b = c := hexByte_inj b c (hu b (by simp)) (hw c (by simp)) (by
        unfold hexByte
        rw [e1, e2])
      rw [List.cons_prefix_cons]
      exact ⟨hbc, ih w (fun x hx => hu x (List.mem_cons_of_mem _ hx))
        (fun x hx => hw x (List.mem_cons_of_mem _ hx)) hrest⟩

/-! ## C4 -/

/-- C4 counterexample: on a buffer that starts with the JPEG signature and
repeats it at byte offset 4, the scan reports nothing at all — the signature's
first hex match is at index 0, so the `index > 0` guard of the `while` loop
stops the whole loop, and the byte-aligned match at offset `4 > 0` inside the
scanned prefix is never reported.  The claim says every such match is
reported. -/
theorem C4_counterexample :
    detectEmbeddedFiles jpegTwiceBuf = []
    ∧ ([255, 216, 255, 224] : List ℕ).isPrefixOf ((jpegTwiceBuf.take 10000).drop 4) = true
    ∧ 0 < (4 : ℕ)
    ∧ ("JPEG", ([255, 216, 255, 224] : List ℕ).map hexByte |>.flatten) ∈ embeddedSignatures := by
  refine ⟨by decide, by decide, by decide, by decide⟩

/-- C4 (amended): the embedded-object scan never reports a hit at offset 0
(every reported offset is positive), and — **provided the signature does not
also occur at the very start of the buffer** — every byte-aligned match of a
known signature at byte offset `o > 0` within the scanned 10000-byte prefix is
reported as a hit `{type, o}`.  (When the buffer starts with the signature, no
occurrence of that signature is reported at all, as the counterexample
shows.) -/
theorem C4_amended_scan (data : List ℕ) (hb : ∀ b ∈ data, b < 256) :
    (∀ t o, (t, o) ∈ detectEmbeddedFiles data → 0 < o)
    ∧ (∀ ty sig, (ty, sig) ∈ embeddedSignatures →
        ∀ sb : List ℕ, (∀ b ∈ sb, b < 256) → sig = (sb.map hexByte).flatten → sb ≠ [] →
          sb.isPrefixOf (data.take 10000) = false →
          ∀ o : ℕ, 0 < o → sb.isPrefixOf ((data.take 10000).drop o) = true →
            (ty, (o : ℚ)) ∈ detectEmbeddedFiles data) := by
  constructor
  · intro t o hmem
    obtain ⟨p, hsig, hmem2⟩ := List.mem_flatMap.mp hmem
    have hmem2' : (t, o) ∈ (scanSignature (embeddedHexString data) p.2).map
        (fun i : ℕ => (p.1, (i : ℚ) / 2)) := hmem2
    obtain ⟨i, hi, heq⟩ :=
      (@List.mem_map ℕ (String × ℚ) (t, o) (fun i => (p.1, (i : ℚ) / 2))
        (scanSignature (embeddedHexString data) p.2)).mp hmem2'
    have hpos : 0 < i := by
      unfold scanSignature at hi
      exact scanLoop_pos _ _ _ _ _ hi
    have ho : ((i : ℚ)) / 2 = o := congrArg Prod.snd heq
    rw [← ho]
    have hiq : (0 : ℚ) < (i : ℚ) := by exact_mod_cast hpos
    positivity
  · intro ty sig hsig sb hsb hsigeq hsbne hnotpre o ho hpre
    have hsE : embeddedHexString data = (((data.take 10000)).map hexByte).flatten := rfl
    have htake : ∀ b ∈ data.take 10000, b < 256 :=
      fun b hb' => hb b (List.take_subset _ _ hb')
    have hpat : sig ≠ [] := by
      cases sb with
      | nil => exact absurd rfl hsbne
      | cons x xs =>
        rw [hsigeq]
        simp [hexByte]
    have hnot0 : sig.isPrefixOf (embeddedHexString data) = false := by
      cases hx : sig.isPrefixOf (embeddedHexString data) with
      | false => rfl
      | true =>
        exfalso
        have hpre0 : sb <+: data.take 10000 :=
          hexFlatten_prefix_back sb _ hsb htake
            (by rw [← hsigeq, ← hsE]; exact List.isPrefixOf_iff_prefix.mp hx)
        have := List.isPrefixOf_iff_prefix.mpr hpre0
        rw [hnotpre] at this
        exact Bool.false_ne_true this
    have hmatch : sig.isPrefixOf ((embeddedHexString data).drop (2 * o)) = true := by
      rw [hsE, hexFlatten_drop, hsigeq]
      exact List.isPrefixOf_iff_prefix.mpr
        (hexFlatten_prefix_mono _ _ (List.isPrefixOf_iff_prefix.mp hpre))
    have hmem : 2 * o ∈ scanSignature (embeddedHexString data) sig :=
      scanSignature_complete _ _ hpat hnot0 (2 * o) (by omega) hmatch
    refine List.mem_flatMap.mpr ⟨(ty, sig), hsig, ?_⟩
    show (ty, (o : ℚ)) ∈ (scanSignature (embeddedHexString data) sig).map
      (fun i : ℕ => (ty, (i : ℚ) / 2))
    refine (@List.mem_map ℕ (String × ℚ) (ty, (o : ℚ)) (fun i => (ty, (i : ℚ) / 2))
      (scanSignature (embeddedHexString data) sig)).mpr ⟨2 * o, hmem, ?_⟩
    show (ty, ((2 * o : ℕ) : ℚ) / 2) = (ty, (o : ℚ))
    congr 1
    push_cast
    ring

/-- Witness for the amended C4 on a buffer with a ZIP signature at byte
offset 1 and nothing at offset 0. -/
theorem C4_witness :
    ("ZIP", (1 : ℚ)) ∈ detectEmbeddedFiles [0, 80, 75, 3, 4] :=
  (C4_amended_scan [0, 80, 75, 3, 4] (by decide)).2 "ZIP" ("504b0304".toList) (by decide)
    zipSigBytes (by decide) (by decide) (by decide) (by decide) 1 (by decide) (by decide)

/-! ## C10 -/

/-- C10: the scan matches on the hex-digit string, so a signature can match at
an odd hex index: on `oddZipBuf` the ZIP signature matches only at hex index 1
and the single reported hit carries the fractional offset `1/2`
(denominator 2), although no byte-aligned occurrence of the ZIP signature
exists anywhere in the buffer. -/
theorem C10_fractional_offset :
    detectEmbeddedFiles oddZipBuf = [("ZIP", (1 : ℚ) / 2)]
    ∧ ((1 : ℚ) / 2).den = 2
    ∧ ∀ o : ℕ, zipSigBytes.isPrefixOf (oddZipBuf.drop o) = false := by
  refine ⟨?_, by norm_num, ?_⟩
  · have h1 : scanSignature (embeddedHexString oddZipBuf) ("ffd8ffe0".toList) = [] := by decide
    have h2 : scanSignature (embeddedHexString oddZipBuf) ("89504e47".toList) = [] := by decide
    have h3 : scanSignature (embeddedHexString oddZipBuf) ("504b0304".toList) = [1] := by decide
    have h4 : scanSignature (embeddedHexString oddZipBuf) ("25504446".toList) = [] := by decide
    show embeddedSignatures.flatMap _ = _
    rw [show embeddedSignatures = [("JPEG", "ffd8ffe0".toList), ("PNG", "89504e47".toList),
      ("ZIP", "504b0304".toList), ("PDF", "25504446".toList)] from rfl]
    simp only [List.flatMap_cons, List.flatMap_nil, h1, h2, h3, h4,
      List.map_cons, List.map_nil, List.nil_append, List.append_nil]
    norm_num
  · intro o
    rcases Nat.lt_or_ge o 5 with h | h
    · interval_cases o <;> decide
    · rw [List.drop_eq_nil_of_le (show oddZipBuf.length ≤ o by simp [oddZipBuf]; omega)]
      decide

/-! ## C5 -/

set_option maxRecDepth 400000 in
/-- The embedded-object scan on the spec's end-to-end buffer: exactly one hit,
`{type: ZIP, offset: 40}`. -/
theorem zipBuf_embedded : detectEmbeddedFiles zipBuf = [("ZIP", (40 : ℚ))] := by
  have h1 : scanSignature (embeddedHexString zipBuf) ("ffd8ffe0".toList) = [] := by decide
  have h2 : scanSignature (embeddedHexString zipBuf) ("89504e47".toList) = [] := by decide
  have h3 : scanSignature (embeddedHexString zipBuf) ("504b0304".toList) = [80] := by decide
  have h4 : scanSignature (embeddedHexString zipBuf) ("25504446".toList) = [] := by decide
  show embeddedSignatures.flatMap _ = _
  rw [show embeddedSignatures = [("JPEG", "ffd8ffe0".toList), ("PNG", "89504e47".toList),
    ("ZIP", "504b0304".toList), ("PDF", "25504446".toList)] from rfl]
  simp only [List.flatMap_cons, List.flatMap_nil, h1, h2, h3, h4,
    List.map_cons, List.map_nil, List.nil_append, List.append_nil]
  norm_num

set_option maxRecDepth 400000 in
/-- C5 counterexample: on the 100-byte all-zero buffer with the ZIP signature
at byte offset 40, the Pattern Scanner reports **no high-severity pattern at
all** (in particular no ZIP-signature match, at offset 40 or anywhere): its
lowercase regexes run over the analyzer's uppercase hex rendering, so
`504b0304` never matches `504B0304`.  The embedded-object scan does report the
`{ZIP, 40}` hit the claim describes. -/
theorem C5_counterexample :
    ((suspiciousPatterns (generateHexData zipBuf)).filter
      (fun p => p.severity == Severity.high)) = []
    ∧ detectEmbeddedFiles zipBuf = [("ZIP", (40 : ℚ))] :=
  ⟨by decide, zipBuf_embedded⟩

set_option maxRecDepth 400000 in
/-- C5 (amended): for the end-to-end buffer, the embedded-object scan reports
`{ZIP, 40}`, but the Pattern Scanner reports only the medium-severity
null-byte-run pattern, with locations being hex-character indices (0 and 88),
and no ZIP match: the uppercase rendering contains `504B0304` (at hex index
80, i.e. byte offset 40) but the scanner's lowercase `504b0304` does not occur
in it. -/
theorem C5_amended_scenario :
    suspiciousPatterns (generateHexData zipBuf)
      = [⟨"00\x7b20,\x7d", "Long sequence of null bytes (possible padding or hidden data)",
          Severity.medium, [0, 88]⟩]
    ∧ detectEmbeddedFiles zipBuf = [("ZIP", (40 : ℚ))]
    ∧ indexOfFrom (fullHexOf (generateHexData zipBuf)) ("504B0304".toList) 0 = some 80
    ∧ indexOfFrom (fullHexOf (generateHexData zipBuf)) ("504b0304".toList) 0 = none :=
  ⟨by decide, zipBuf_embedded, by decide, by decide⟩

/-! ## Hex renderer lemmas -/

/-- Space-stripping distributes over append. -/
theorem stripSpaces_append (a b : List Char) :
    stripSpaces (a ++ b) = stripSpaces a ++ stripSpaces b :=
  List.filter_append a b

/-- Space-stripping drops a leading space. -/
theorem stripSpaces_space_cons (l : List Char) :
    stripSpaces (' ' :: l) = stripSpaces l := by
  simp [stripSpaces, List.filter_cons]

/-- Padding on the right with spaces is invisible after space-stripping. -/
theorem stripSpaces_padRight (w : ℕ) (l : List Char) :
    stripSpaces (padRight ' ' w l) = stripSpaces l := by
  unfold padRight
  rw [stripSpaces_append]
  have h : stripSpaces (List.replicate (w - l.length) ' ') = [] := by
    generalize w - l.length = n
    induction n with
    | zero => rfl
    | succ n ih => rw [List.replicate_succ, stripSpaces_space_cons, ih]
  rw [h, List.append_nil]

/-- Hex digits are not spaces. -/
theorem hexDigit_ne_space (n : ℕ) : (hexDigit n != ' ') = true := by
  have h : ∀ m < 16, (hexDigitChars.getD m '0' != ' ') = true := by decide
  exact h (n % 16) (Nat.mod_lt _ (by omega))

/-- A rendered hex octet contains no spaces. -/
theorem stripSpaces_hexByte (b : ℕ) : stripSpaces (hexByte b) = hexByte b := by
  show stripSpaces [hexDigit (b / 16), hexDigit b] = _
  simp only [stripSpaces, List.filter_cons, hexDigit_ne_space, List.filter_nil]
  rfl

/-- Stripping the spaces of the space-joined octets leaves their plain
concatenation. -/
theorem stripSpaces_joinSep (chunk : List ℕ) :
    stripSpaces (joinSep ' ' (chunk.map hexByte)) = (chunk.map hexByte).flatten := by
  induction chunk with
  | nil => rfl
  | cons b rest ih =>
    cases rest with
    | nil =>
      show stripSpaces (hexByte b) = hexByte b ++ [].flatten
      rw [stripSpaces_hexByte]
      simp
    | cons c rest2 =>
      show stripSpaces (hexByte b ++ ' ' :: joinSep ' ' ((c :: rest2).map hexByte)) = _
      rw [stripSpaces_append, stripSpaces_space_cons, stripSpaces_hexByte, ih]
      simp

/-- Parsing inverts rendering one hex digit. -/
theorem hexCharVal_hexDigit (m : ℕ) : hexCharVal (hexDigit m) = m % 16 := by
  have h : ∀ k < 16, hexCharVal (hexDigitChars.getD k '0') = k := by decide
  exact h (m % 16) (by omega)

/-- Parsing inverts rendering a whole chunk of bytes. -/
theorem parseHexPairs_flatten (chunk : List ℕ) (hb : ∀ b ∈ chunk, b < 256) :
    parseHexPairs ((chunk.map hexByte).flatten) = chunk := by
  induction chunk with
  | nil => rfl
  | cons b rest ih =>
    show parseHexPairs (hexDigit (b / 16) :: hexDigit b :: (rest.map hexByte).flatten)
      = b :: rest
    unfold parseHexPairs
    rw [hexCharVal_hexDigit, hexCharVal_hexDigit,
      ih (fun x hx => hb x (List.mem_cons_of_mem _ hx))]
    have hb0 : b < 256 := hb b (by simp)
    congr 1
    omega

/-- Parsing one rendered row recovers its chunk of bytes. -/
theorem row_parse (i : ℕ) (chunk : List ℕ) (hb : ∀ b ∈ chunk, b < 256) :
    parseHexPairs (stripSpaces ((mkHexRow false i chunk).hex)) = chunk := by
  show parseHexPairs (stripSpaces (padRight ' ' 47 (joinSep ' ' (chunk.map _)))) = chunk
  rw [stripSpaces_padRight]
  show parseHexPairs (stripSpaces (joinSep ' ' (chunk.map hexByte))) = chunk
  rw [stripSpaces_joinSep, parseHexPairs_flatten _ hb]

/-- Round trip through the row loop, at any fuel at least the byte count. -/
theorem hexDumpRowsGo_parse :
    ∀ (fuel i : ℕ) (data : List ℕ), data.length ≤ fuel → (∀ b ∈ data, b < 256) →
      parseHexDump (hexDumpRowsGo false fuel i data) = data := by
  intro fuel
  induction fuel with
  | zero =>
    intro i data hlen _
    cases data with
    | nil => rfl
    | cons b rest => simp at hlen
  | succ fuel ih =>
    intro i data hlen hb
    cases data with
    | nil => rfl
    | cons b rest =>
      show parseHexDump (mkHexRow false i ((b :: rest).take 16)
        :: hexDumpRowsGo false fuel (i + 16) ((b :: rest).drop 16)) = b :: rest
      unfold parseHexDump
      rw [List.map_cons, List.flatten_cons]
      rw [row_parse i _ (fun x hx => hb x (List.take_subset _ _ hx))]
      have htail := ih (i + 16) ((b :: rest).drop 16)
        (by simp only [List.length_drop, List.length_cons] at hlen ⊢; omega)
        (fun x hx => hb x (List.drop_subset _ _ hx))
      unfold parseHexDump at htail
      rw [htail]
      exact List.take_append_drop 16 (b :: rest)

/-- Row count of the row loop: `⌈length / 16⌉`. -/
theorem hexDumpRowsGo_length :
    ∀ (fuel i : ℕ) (data : List ℕ), data.length ≤ fuel →
      (hexDumpRowsGo false fuel i data).length = (data.length + 15) / 16 := by
  intro fuel
  induction fuel with
  | zero =>
    intro i data hlen
    cases data with
    | nil => rfl
    | cons b rest => simp at hlen
  | succ fuel ih =>
    intro i data hlen
    cases data with
    | nil => rfl
    | cons b rest =>
      show (mkHexRow false i _ :: hexDumpRowsGo false fuel (i + 16)
        ((b :: rest).drop 16)).length = _
      rw [List.length_cons, ih (i + 16) ((b :: rest).drop 16)
        (by simp only [List.length_drop, List.length_cons] at hlen ⊢; omega)]
      simp only [List.length_drop, List.length_cons]
      omega

/-- Every character `natToHex` emits is a hex digit. -/
theorem hexDigit_mem (n : ℕ) : hexDigit n ∈ hexDigitChars := by
  have h : ∀ m < 16, hexDigitChars.getD m '0' ∈ hexDigitChars := by decide
  exact h (n % 16) (by omega)

/-- All characters of `natToHex` are hex digits. -/
theorem natToHex_mem (n : ℕ) : ∀ c ∈ natToHex n, c ∈ hexDigitChars := by
  induction n using Nat.strong_induction_on with
  | _ n ih =>
    intro c hc
    rw [natToHex.eq_def] at hc
    by_cases h16 : n < 16
    · rw [dif_pos h16] at hc
      rcases List.mem_singleton.mp hc with rfl
      exact hexDigit_mem n
    · rw [dif_neg h16] at hc
      rcases List.mem_append.mp hc with hc | hc
      · exact ih (n / 16) (Nat.div_lt_self (by omega) (by omega)) c hc
      · rcases List.mem_singleton.mp hc with rfl
        exact hexDigit_mem (n % 16)

/-- `natToHex n` has at most `k + 1` digits when `n < 16 ^ (k + 1)`. -/
theorem natToHex_length : ∀ (k n : ℕ), n < 16 ^ (k + 1) → (natToHex n).length ≤ k + 1 := by
  intro k
  induction k with
  | zero =>
    intro n h
    rw [natToHex.eq_def, dif_pos (by simpa using h)]
    simp
  | succ k ih =>
    intro n h
    rw [natToHex.eq_def]
    by_cases h16 : n < 16
    · rw [dif_pos h16]
      simp
    · rw [dif_neg h16, List.length_append]
      have hdiv : n / 16 < 16 ^ (k + 1) := by
        rw [Nat.div_lt_iff_lt_mul (by omega)]
        calc n < 16 ^ (k + 1 + 1) := h
        _ = 16 ^ (k + 1) * 16 := by ring
      have := ih _ hdiv
      simp only [List.length_singleton]
      omega

/-- Length of the space-joined octet list: one less than three characters per
octet, for a non-empty list. -/
theorem joinSep_length_le :
    ∀ l : List (List Char), (∀ x ∈ l, x.length ≤ 2) →
      l = [] ∨ (joinSep ' ' l).length + 1 ≤ 3 * l.length := by
  intro l
  induction l with
  | nil => intro _; exact Or.inl rfl
  | cons x rest ih =>
    intro h
    refine Or.inr ?_
    cases rest with
    | nil =>
      show x.length + 1 ≤ _
      have := h x (by simp)
      simp only [List.length_cons, List.length_nil]
      omega
    | cons y rest2 =>
      show (x ++ ' ' :: joinSep ' ' (y :: rest2)).length + 1 ≤ _
      rw [List.length_append, List.length_cons]
      have h1 := h x (by simp)
      have h2 := ih (fun z hz => h z (List.mem_cons_of_mem _ hz))
      rcases h2 with h2 | h2
      · exact absurd h2 (by simp)
      · simp only [List.length_cons] at h2 ⊢
        omega

/-- Shape of every rendered row: 8-character uppercase-hex offset, 47-character
hex column, at most 16 ASCII characters. -/
theorem hexDumpRowsGo_shape :
    ∀ (fuel i : ℕ) (data : List ℕ), data.length ≤ fuel → i + data.length ≤ 2 ^ 32 →
      ∀ r ∈ hexDumpRowsGo false fuel i data,
        r.offset.length = 8 ∧ (∀ c ∈ r.offset, c ∈ hexDigitChars.map Char.toUpper) ∧
          r.hex.length = 47 ∧ r.ascii.length ≤ 16 := by
  intro fuel
  induction fuel with
  | zero =>
    intro i data hlen _ r hr
    cases data with
    | nil => simp [hexDumpRowsGo] at hr
    | cons b rest => simp at hlen
  | succ fuel ih =>
    intro i data hlen hbound r hr
    cases data with
    | nil => simp [hexDumpRowsGo] at hr
    | cons b rest =>
      rcases List.mem_cons.mp hr with rfl | hr
      · have hi : i < 2 ^ 32 := by
          have : 0 < (b :: rest).length := by simp
          omega
        have hnat : (natToHex i).length ≤ 8 :=
          natToHex_length 7 i (by norm_num at hi ⊢; omega)
        refine ⟨?_, ?_, ?_, ?_⟩
        · show ((padLeft '0' 8 (natToHex i)).map Char.toUpper).length = 8
          rw [List.length_map]
          show (List.replicate (8 - (natToHex i).length) '0' ++ natToHex i).length = 8
          rw [List.length_append, List.length_replicate]
          omega
        · intro c hc
          obtain ⟨c', hc', rfl⟩ := List.mem_map.mp hc
          rcases List.mem_append.mp hc' with hc' | hc'
          · have : c' = '0' := List.eq_of_mem_replicate hc'
            subst this
            exact List.mem_map.mpr ⟨'0', by decide, rfl⟩
          · exact List.mem_map.mpr ⟨c', natToHex_mem i c' hc', rfl⟩
        · show (padRight ' ' 47 (joinSep ' ' (((b :: rest).take 16).map
            (fun x => if false = true then (hexByte x).map Char.toUpper
              else hexByte x)))).length = 47
          have hjoin : (joinSep ' ' (((b :: rest).take 16).map
              (fun x => if false = true then (hexByte x).map Char.toUpper
                else hexByte x))).length ≤ 47 := by
            have hle := joinSep_length_le (((b :: rest).take 16).map
              (fun x => if false = true then (hexByte x).map Char.toUpper else hexByte x))
              (by
                intro x hx
                obtain ⟨y, -, rfl⟩ := List.mem_map.mp hx
                simp [hexByte])
            have hlen16 : (((b :: rest).take 16).map
                (fun x => if false = true then (hexByte x).map Char.toUpper
                  else hexByte x)).length ≤ 16 := by
              rw [List.length_map, List.length_take]
              omega
            rcases hle with hle | hle
            · rw [hle]
              simp [joinSep]
            · omega
          unfold padRight
          rw [List.length_append, List.length_replicate]
          omega
        · show (((b :: rest).take 16).map asciiOf).length ≤ 16
          rw [List.length_map, List.length_take]
          omega
      · by_cases hd : (b :: rest).drop 16 = []
        · rw [hd] at hr
          simp [hexDumpRowsGo] at hr
        · have hlen' : 16 < (b :: rest).length := by
            by_contra hcon
            exact hd (List.drop_eq_nil_of_le (by omega))
          exact ih (i + 16) ((b :: rest).drop 16)
            (by simp only [List.length_drop, List.length_cons] at hlen ⊢; omega)
            (by simp only [List.length_drop]; omega) r hr

/-- The ASCII column of row `k / 16`, position `k % 16`, shows byte `k`. -/
theorem hexDumpRowsGo_ascii :
    ∀ (fuel i : ℕ) (data : List ℕ), data.length ≤ fuel →
      ∀ (k b : ℕ), data[k]? = some b →
        ∃ r, (hexDumpRowsGo false fuel i data)[k / 16]? = some r ∧
          r.ascii[k % 16]? = some (asciiOf b) := by
  intro fuel
  induction fuel with
  | zero =>
    intro i data hlen k b hk
    cases data with
    | nil => simp at hk
    | cons x rest => simp at hlen
  | succ fuel ih =>
    intro i data hlen k b hk
    cases data with
    | nil => simp at hk
    | cons x rest =>
      by_cases h16 : k < 16
      · have hdiv : k / 16 = 0 := by omega
        have hmod : k % 16 = k := by omega
        refine ⟨mkHexRow false i ((x :: rest).take 16), ?_, ?_⟩
        · rw [hdiv, show (hexDumpRowsGo false (fuel + 1) i (x :: rest)) = mkHexRow false i
            ((x :: rest).take 16) :: hexDumpRowsGo false fuel (i + 16) ((x :: rest).drop 16)
            from rfl, List.getElem?_cons_zero]
        · show (((x :: rest).take 16).map asciiOf)[k % 16]? = some (asciiOf b)
          rw [hmod, List.getElem?_map, List.getElem?_take, if_pos h16, hk]
          rfl
      · have hd : ((x :: rest).drop 16)[k - 16]? = some b := by
          rw [List.getElem?_drop, show 16 + (k - 16) = k by omega]
          exact hk
        obtain ⟨r, hr1, hr2⟩ := ih (i + 16) ((x :: rest).drop 16)
          (by simp only [List.length_drop, List.length_cons] at hlen ⊢; omega) (k - 16) b hd
        refine ⟨r, ?_, ?_⟩
        · rw [show k / 16 = (k - 16) / 16 + 1 by omega]
          rw [show (hexDumpRowsGo false (fuel + 1) i (x :: rest)) = mkHexRow false i
            ((x :: rest).take 16) :: hexDumpRowsGo false fuel (i + 16) ((x :: rest).drop 16)
            from rfl]
          rw [List.getElem?_cons_succ]
          exact hr1
        · rw [show k % 16 = (k - 16) % 16 by omega]
          exact hr2

/-! ## C6 -/

/-- C6: for every byte range (of bytes, of any length up to `2^32`), parsing
the rendered hex dump recovers the bytes exactly; the number of rows is
`⌈length / 16⌉`; every row has an 8-character offset made of uppercase hex
digits and a 47-character space-padded hex column with at most 16 ASCII
characters; and the ASCII cell for byte `k` (row `k / 16`, column `k % 16`)
shows the byte verbatim when printable (0x20–0x7E) and `'.'` otherwise. -/
theorem C6_hexdump_roundtrip (data : List ℕ) (hb : ∀ b ∈ data, b < 256)
    (hlen : data.length ≤ 2 ^ 32) :
    parseHexDump (generateHexDump data) = data
    ∧ (generateHexDump data).length = (data.length + 15) / 16
    ∧ (∀ r ∈ generateHexDump data,
        r.offset.length = 8 ∧ (∀ c ∈ r.offset, c ∈ hexDigitChars.map Char.toUpper) ∧
          r.hex.length = 47 ∧ r.ascii.length ≤ 16)
    ∧ (∀ k b : ℕ, data[k]? = some b →
        ∃ r, (generateHexDump data)[k / 16]? = some r ∧
          r.ascii[k % 16]? = some (if 32 ≤ b ∧ b ≤ 126 then Char.ofNat b else '.')) := by
  refine ⟨?_, ?_, ?_, ?_⟩
  · exact hexDumpRowsGo_parse data.length 0 data (le_refl _) hb
  · exact hexDumpRowsGo_length data.length 0 data (le_refl _)
  · exact hexDumpRowsGo_shape data.length 0 data (le_refl _) (by omega)
  · intro k b hk
    exact hexDumpRowsGo_ascii data.length 0 data (le_refl _) k b hk

/-- Witness for C6 on a 20-byte buffer spanning two rows. -/
theorem C6_witness :
    parseHexDump (generateHexDump [0, 65, 255, 46, 32, 126, 127, 10, 100, 200,
      15, 16, 17, 18, 19, 20, 21, 22, 23, 24])
      = [0, 65, 255, 46, 32, 126, 127, 10, 100, 200, 15, 16, 17, 18, 19, 20, 21, 22, 23, 24]
    ∧ (generateHexDump [0, 65, 255, 46, 32, 126, 127, 10, 100, 200,
        15, 16, 17, 18, 19, 20, 21, 22, 23, 24]).length = (20 + 15) / 16 :=
  ⟨(C6_hexdump_roundtrip _ (by decide) (by norm_num)).1,
   (C6_hexdump_roundtrip _ (by decide) (by norm_num)).2.1⟩

/-! ## Entropy lemmas -/

/-- The byte-value counts over 0..255 sum to the length, for a byte list. -/
theorem length_eq_sum_counts (data : List ℕ) (hb : ∀ b ∈ data, b < 256) :
    (∑ b ∈ Finset.range 256, data.count b) = data.length := by
  induction data with
  | nil => simp
  | cons a l ih =>
    have ha : a ∈ Finset.range 256 := Finset.mem_range.mpr (hb a (by simp))
    have hstep : ∀ b, (a :: l).count b = l.count b + if a = b then 1 else 0 := by
      intro b
      rw [List.count_cons]
      congr 1
      simp [beq_iff_eq]
    rw [Finset.sum_congr rfl (fun b _ => hstep b), Finset.sum_add_distrib,
      ih (fun x hx => hb x (List.mem_cons_of_mem _ hx)), Finset.sum_ite_eq _ a (fun _ => 1),
      if_pos ha, List.length_cons]

/-- The count of every value in `List.range n`. -/
theorem count_range_eq (n a : ℕ) : (List.range n).count a = if a < n then 1 else 0 := by
  induction n with
  | zero => simp
  | succ n ih =>
    rw [List.range_succ, List.count_append, ih]
    rcases Nat.lt_trichotomy a n with h | rfl | h
    · have h0 : List.count a [n] = 0 :=
        List.count_eq_zero_of_not_mem (by simp; omega)
      rw [h0, if_pos h, if_pos (by omega)]
    · have h1 : List.count a [a] = 1 := by simp
      rw [h1, if_neg (lt_irrefl _), if_pos (by omega)]
    · have h0 : List.count a [n] = 0 :=
        List.count_eq_zero_of_not_mem (by simp; omega)
      rw [h0, if_neg (by omega), if_neg (by omega)]

/-! ## C7 -/

/-- C7: the entropy analyzer returns exactly 0 on every constant buffer,
exactly 8 on every buffer in which all 256 byte values are equally
represented, and 0 with no suspicious chunk entries on the empty buffer. -/
theorem C7_entropy_values :
    (∀ c n : ℕ, calculateEntropy (List.replicate n c) = 0)
    ∧ (∀ (data : List ℕ) (m : ℕ), (∀ b ∈ data, b < 256) → 0 < m →
        (∀ b < 256, data.count b = m) → calculateEntropy data = 8)
    ∧ calculateEntropy [] = 0
    ∧ (∀ i : ℕ, ¬ isSuspiciousChunkEntry [] i) := by
  refine ⟨?_, ?_, ?_, ?_⟩
  · intro c n
    unfold calculateEntropy
    rw [neg_eq_zero]
    refine Finset.sum_eq_zero ?_
    intro b _
    rcases eq_or_ne b c with rfl | hne
    · rw [List.count_replicate_self]
      cases n with
      | zero => simp
      | succ n =>
        rw [if_pos (Nat.succ_pos n), List.length_replicate]
        have h1 : ((n + 1 : ℕ) : ℝ) / ((n + 1 : ℕ) : ℝ) = 1 :=
          div_self (by exact_mod_cast Nat.succ_ne_zero n)
        rw [h1, Real.logb_one, mul_zero]
    · have hzero : (List.replicate n c).count b = 0 :=
        List.count_eq_zero_of_not_mem (fun hmem => hne (List.eq_of_mem_replicate hmem))
      rw [hzero]
      simp
  · intro data m hb hm hcount
    have hlen : data.length = 256 * m := by
      rw [← length_eq_sum_counts data hb,
        Finset.sum_congr rfl (fun b hbm => hcount b (Finset.mem_range.mp hbm)),
        Finset.sum_const, Finset.card_range, smul_eq_mul]
    unfold calculateEntropy
    have hm' : ((m : ℝ)) ≠ 0 := Nat.cast_ne_zero.mpr (by omega)
    have hterm : ∀ b ∈ Finset.range 256,
        (if 0 < data.count b then
          ((data.count b : ℝ) / data.length) * Real.logb 2 ((data.count b : ℝ) / data.length)
        else 0) = (1 / 256 : ℝ) * Real.logb 2 (1 / 256) := by
      intro b hbm
      rw [hcount b (Finset.mem_range.mp hbm), if_pos hm, hlen]
      have hq : ((m : ℝ)) / ((256 * m : ℕ) : ℝ) = 1 / 256 := by
        push_cast
        field_simp
        ring
      rw [hq]
    rw [Finset.sum_congr rfl hterm, Finset.sum_const, Finset.card_range]
    have hlogb : Real.logb 2 (1 / 256 : ℝ) = -8 := by
      rw [one_div, Real.logb_inv]
      rw [show (256 : ℝ) = 2 ^ (8 : ℕ) by norm_num, Real.logb_pow,
        Real.logb_self_eq_one (by norm_num)]
      norm_num
    rw [hlogb, nsmul_eq_mul]
    norm_num
  · unfold calculateEntropy
    simp
  · intro i hcon
    obtain ⟨hmem, -⟩ := hcon
    simp [chunkStarts] at hmem

/-- Witness for C7: a constant buffer has entropy 0 and the buffer holding
each byte value exactly once has entropy 8. -/
theorem C7_witness :
    calculateEntropy (List.replicate 5 7) = 0 ∧ calculateEntropy (List.range 256) = 8 :=
  ⟨C7_entropy_values.1 7 5,
   C7_entropy_values.2.1 (List.range 256) 1 (by simp) one_pos
     (fun b hb => by rw [count_range_eq]; exact if_pos hb)⟩

/-! ## ELA lemmas -/

/-- In the scanned lower-left block of `elaComp`, nothing differs from the
original. -/
theorem elaDemo_amplified_zero (dy dx : ℕ) (_hdy : dy < 32) (hdx : dx < 32) :
    amplifiedAt elaOrig elaComp ((0 + dy) * 64 + (0 + dx)) = 0 := by
  have hcomp : elaComp ((0 + dy) * 64 + (0 + dx)) = ⟨255, 255, 255⟩ := by
    unfold elaComp
    rw [if_neg]
    rintro ⟨h1, -⟩
    have hmod : ((0 + dy) * 64 + (0 + dx)) % 64 = dx := by omega
    omega
  unfold amplifiedAt sumDiff
  rw [hcomp]
  show (min 255 (round ((10 * ((((255 : ℤ) - 255).natAbs + ((255 : ℤ) - 255).natAbs
    + ((255 : ℤ) - 255).natAbs : ℕ) : ℚ)) / 3))).toNat = 0
  norm_num

/-- In the bottom-right block of `elaComp`, every pixel differs maximally and
the stored amplified value saturates at 255. -/
theorem elaDemo_amplified_max (dy dx : ℕ) (hdy : dy < 32) (hdx : dx < 32) :
    amplifiedAt elaOrig elaComp ((32 + dy) * 64 + (32 + dx)) = 255 := by
  have hcomp : elaComp ((32 + dy) * 64 + (32 + dx)) = ⟨0, 0, 0⟩ := by
    unfold elaComp
    rw [if_pos]
    constructor
    · have hmod : ((32 + dy) * 64 + (32 + dx)) % 64 = 32 + dx := by omega
      omega
    · have hdiv : ((32 + dy) * 64 + (32 + dx)) / 64 = 32 + dy := by omega
      omega
  unfold amplifiedAt sumDiff
  rw [hcomp]
  show (min 255 (round ((10 * ((((255 : ℤ) - 0).natAbs + ((255 : ℤ) - 0).natAbs
    + ((255 : ℤ) - 0).natAbs : ℕ) : ℚ)) / 3))).toNat = 255
  have h765 : ((((255 : ℤ) - 0).natAbs + ((255 : ℤ) - 0).natAbs
      + ((255 : ℤ) - 0).natAbs : ℕ) : ℚ) = 765 := by norm_num
  rw [h765, show ((10 : ℚ) * 765) / 3 = ((2550 : ℤ) : ℚ) by norm_num, round_intCast]
  rfl

/-- The scanned block of the 64 × 64 demo has mean amplified difference 0. -/
theorem elaDemo_blockAvg_zero : blockAvg elaOrig elaComp 64 0 0 = 0 := by
  have hbs : blockSum elaOrig elaComp 64 0 0 = 0 := by
    unfold blockSum
    refine List.sum_eq_zero ?_
    intro x hx
    obtain ⟨dy, hdy, rfl⟩ := List.mem_map.mp hx
    refine List.sum_eq_zero ?_
    intro z hz
    obtain ⟨dx, hdx, rfl⟩ := List.mem_map.mp hz
    exact elaDemo_amplified_zero dy dx (List.mem_range.mp hdy) (List.mem_range.mp hdx)
  unfold blockAvg
  rw [hbs]
  norm_num

/-- The bottom-right block of the 64 × 64 demo has mean amplified
difference 255. -/
theorem elaDemo_blockAvg_max : blockAvg elaOrig elaComp 64 32 32 = 255 := by
  have hbs : blockSum elaOrig elaComp 64 32 32 = 261120 := by
    unfold blockSum
    have hinner : ∀ dy < 32, ((List.range 32).map fun dx =>
        amplifiedAt elaOrig elaComp ((32 + dy) * 64 + (32 + dx))).sum = 8160 := by
      intro dy hdy
      have hconst : ∀ x ∈ (List.range 32).map (fun dx =>
          amplifiedAt elaOrig elaComp ((32 + dy) * 64 + (32 + dx))), x = 255 := by
        intro x hx
        obtain ⟨dx, hdx, rfl⟩ := List.mem_map.mp hx
        exact elaDemo_amplified_max dy dx hdy (List.mem_range.mp hdx)
      rw [List.sum_eq_card_nsmul _ 255 hconst]
      simp
    have houter : ∀ x ∈ (List.range 32).map (fun dy => ((List.range 32).map fun dx =>
        amplifiedAt elaOrig elaComp ((32 + dy) * 64 + (32 + dx))).sum), x = 8160 := by
      intro x hx
      obtain ⟨dy, hdy, rfl⟩ := List.mem_map.mp hx
      exact hinner dy (List.mem_range.mp hdy)
    rw [List.sum_eq_card_nsmul _ 8160 houter]
    simp
  unfold blockAvg
  rw [hbs]
  norm_num

/-! ## C8 -/

/-- C8 counterexample: on a 64 × 64 image whose recompression differs only in
the bottom-right 32 × 32 block (mean amplified difference 255, far above the
threshold 15), `performELA` reports **no** suspicious blocks: its loops stop
at `y < height − 32` and `x < width − 32`, so only the block at (0, 0) is ever
examined — the code does not partition the difference map.  The partition the
claim describes marks block (32, 32) suspicious. -/
theorem C8_counterexample :
    (performELA elaOrig elaComp 64 64 15).suspiciousAreas = []
    ∧ (32, 32) ∈ claimPartitionBlocks elaOrig elaComp 64 64 15 := by
  constructor
  · have hs : scannedBlocks 64 64 = [(0, 0)] := by decide
    show (scannedBlocks 64 64).filterMap
      (fun p => if (15 : ℚ) < blockAvg elaOrig elaComp 64 p.1 p.2 then
        some (SuspiciousArea.mk p.1 p.2 32 32
          (min 100 (blockAvg elaOrig elaComp 64 p.1 p.2 / 255 * 100)))
      else none) = []
    rw [hs]
    rw [List.filterMap_cons]
    rw [if_neg (by rw [elaDemo_blockAvg_zero]; norm_num)]
    rfl
  · unfold claimPartitionBlocks
    rw [List.mem_filter]
    constructor
    · decide
    · exact decide_eq_true (by rw [elaDemo_blockAvg_max]; norm_num)

/-- The sum of a range-indexed list equals the corresponding `Finset` sum. -/
theorem list_sum_range_eq (f : ℕ → ℚ) :
    ∀ n, ((List.range n).map f).sum = ∑ i ∈ Finset.range n, f i := by
  intro n
  induction n with
  | zero => simp
  | succ n ih =>
    rw [List.range_succ, List.map_append, List.sum_append, Finset.sum_range_succ, ih]
    simp

/-- C8 (amended): `performELA` computes
`overallScore = min(100, mean/50 × 100)` over the per-pixel average absolute
channel differences; its block scan covers exactly the 32-aligned positions
strictly below `width − 32` / `height − 32` (so the rightmost and bottom block
rows of the map are never examined — not a partition), marking a scanned block
suspicious iff its mean amplified difference exceeds `t`; and the verdict is
the four-tier function of the overall score with thresholds 10, 30, 60. -/
theorem C8_amended_ela (orig comp : ℕ → RGB) (w h : ℕ) (t : ℚ) :
    ((performELA orig comp w h t).overallScore
      = min 100 ((∑ i ∈ Finset.range (w * h), (sumDiff orig comp i : ℚ) / 3)
          / (w * h) / 50 * 100))
    ∧ (∀ x y : ℕ, (x, y) ∈ scannedBlocks w h ↔
        x % 32 = 0 ∧ x < w - 32 ∧ y % 32 = 0 ∧ y < h - 32)
    ∧ (∀ x y : ℕ,
        (∃ c, SuspiciousArea.mk x y 32 32 c ∈ (performELA orig comp w h t).suspiciousAreas)
          ↔ ((x, y) ∈ scannedBlocks w h ∧ t < blockAvg orig comp w x y))
    ∧ (performELA orig comp w h t).analysis
        = elaVerdict (performELA orig comp w h t).overallScore
    ∧ (∀ s : ℚ,
        (s < 10 → elaVerdict s = "Low manipulation probability. Image appears authentic.")
        ∧ (10 ≤ s → s < 30 →
            elaVerdict s = "Moderate manipulation probability. Some areas may have been edited.")
        ∧ (30 ≤ s → s < 60 →
            elaVerdict s = "High manipulation probability. Significant editing detected.")
        ∧ (60 ≤ s →
            elaVerdict s = "Very high manipulation probability. Extensive editing detected.")) := by
  refine ⟨?_, ?_, ?_, rfl, ?_⟩
  · show min 100 ((((List.range (w * h)).map fun i => (sumDiff orig comp i : ℚ) / 3).sum
      / (w * h)) / 50 * 100) = _
    rw [list_sum_range_eq]
  · intro x y
    constructor
    · intro hmem
      obtain ⟨y', hy', hmem2⟩ := List.mem_flatMap.mp hmem
      obtain ⟨x', hx', heq⟩ := List.mem_map.mp hmem2
      obtain ⟨rfl, rfl⟩ : x' = x ∧ y' = y :=
        ⟨congrArg Prod.fst heq, congrArg Prod.snd heq⟩
      obtain ⟨-, hy'⟩ := List.mem_filter.mp hy'
      obtain ⟨-, hx'⟩ := List.mem_filter.mp hx'
      simp only [Bool.and_eq_true, beq_iff_eq, decide_eq_true_eq] at hy' hx'
      exact ⟨hx'.1, hx'.2, hy'.1, hy'.2⟩
    · rintro ⟨hx1, hx2, hy1, hy2⟩
      refine List.mem_flatMap.mpr ⟨y, ?_, ?_⟩
      · rw [List.mem_filter]
        refine ⟨List.mem_range.mpr (by omega), ?_⟩
        simp only [Bool.and_eq_true, beq_iff_eq, decide_eq_true_eq]
        exact ⟨hy1, hy2⟩
      · refine List.mem_map.mpr ⟨x, ?_, rfl⟩
        rw [List.mem_filter]
        refine ⟨List.mem_range.mpr (by omega), ?_⟩
        simp only [Bool.and_eq_true, beq_iff_eq, decide_eq_true_eq]
        exact ⟨hx1, hx2⟩
  · intro x y
    constructor
    · rintro ⟨c, hc⟩
      have hc' : SuspiciousArea.mk x y 32 32 c ∈ (scannedBlocks w h).filterMap
          (fun p => if t < blockAvg orig comp w p.1 p.2 then
            some ⟨p.1, p.2, 32, 32, min 100 (blockAvg orig comp w p.1 p.2 / 255 * 100)⟩
          else none) := hc
      obtain ⟨p, hp, hpe⟩ := List.mem_filterMap.mp hc'
      by_cases hcond : t < blockAvg orig comp w p.1 p.2
      · rw [if_pos hcond] at hpe
        obtain he := Option.some.inj hpe
        have hx : p.1 = x := congrArg SuspiciousArea.x he
        have hy : p.2 = y := congrArg SuspiciousArea.y he
        rw [hx, hy] at hcond
        refine ⟨?_, hcond⟩
        have : p = (x, y) := Prod.ext hx hy
        rw [← this]
        exact hp
      · rw [if_neg hcond] at hpe
        exact absurd hpe (by simp)
    · rintro ⟨hmem, hcond⟩
      refine ⟨min 100 (blockAvg orig comp w x y / 255 * 100), ?_⟩
      show _ ∈ (scannedBlocks w h).filterMap _
      refine List.mem_filterMap.mpr ⟨(x, y), hmem, ?_⟩
      rw [if_pos hcond]
  · intro s
    refine ⟨?_, ?_, ?_, ?_⟩
    · intro h1
      unfold elaVerdict
      rw [if_pos h1]
    · intro h1 h2
      unfold elaVerdict
      rw [if_neg (by linarith), if_pos h2]
    · intro h1 h2
      unfold elaVerdict
      rw [if_neg (by linarith), if_neg (by linarith), if_pos h2]
    · intro h1
      unfold elaVerdict
      rw [if_neg (by linarith), if_neg (by linarith), if_neg (by linarith)]

/-- Witness for C8: the score formula instantiated on the 64 × 64 demo pair,
and the lowest verdict tier at score 0. -/
theorem C8_witness :
    (performELA elaOrig elaComp 64 64 15).overallScore
      = min 100 ((∑ i ∈ Finset.range (64 * 64), (sumDiff elaOrig elaComp i : ℚ) / 3)
          / (64 * 64) / 50 * 100)
    ∧ elaVerdict 0 = "Low manipulation probability. Image appears authentic." :=
  ⟨(C8_amended_ela elaOrig elaComp 64 64 15).1,
   ((C8_amended_ela elaOrig elaComp 64 64 15).2.2.2.2 0).1 (by norm_num)⟩

/-! ## Batch summarizer lemmas -/

/-- `charListLt` is irreflexive. -/
theorem charListLt_irrefl : ∀ l : List Char, charListLt l l = false := by
  intro l
  induction l with
  | nil => rfl
  | cons a as ih =>
    show (if a < a then true else if a < a then false else charListLt as as) = false
    rw [if_neg (lt_irrefl a), if_neg (lt_irrefl a), ih]

/-- `charListLt` is asymmetric. -/
theorem charListLt_asymm : ∀ a b : List Char, charListLt a b = true → charListLt b a = false := by
  intro a
  induction a with
  | nil =>
    intro b h
    cases b with
    | nil => exact absurd h (by simp [charListLt])
    | cons c cs => rfl
  | cons x xs ih =>
    intro b h
    cases b with
    | nil => exact absurd h (by simp [charListLt])
    | cons y ys =>
      show (if y < x then true else if x < y then false else charListLt ys xs) = false
      rw [show charListLt (x :: xs) (y :: ys)
        = (if x < y then true else if y < x then false else charListLt xs ys) from rfl] at h
      by_cases hxy : x < y
      · rw [if_neg (asymm hxy), if_pos hxy]
      · rw [if_neg hxy] at h
        by_cases hyx : y < x
        · rw [if_pos hyx] at h
          exact absurd h (by simp)
        · rw [if_neg hyx] at h
          rw [if_neg hyx, if_neg hxy, ih ys h]

/-- The not-below relation of `charListLt` is transitive. -/
theorem charListLt_ge_trans :
    ∀ a b c : List Char, charListLt b a = false → charListLt c b = false →
      charListLt c a = false := by
  intro a
  induction a with
  | nil =>
    intro b c _ _
    cases c with
    | nil => rfl
    | cons z zs => rfl
  | cons x xs ih =>
    intro b c hba hcb
    cases b with
    | nil => exact absurd hba (by simp [charListLt])
    | cons y ys =>
      cases c with
      | nil => exact absurd hcb (by simp [charListLt])
      | cons z zs =>
        rw [show charListLt (y :: ys) (x :: xs)
          = (if y < x then true else if x < y then false else charListLt ys xs) from rfl] at hba
        rw [show charListLt (z :: zs) (y :: ys)
          = (if z < y then true else if y < z then false else charListLt zs ys) from rfl] at hcb
        show (if z < x then true else if x < z then false else charListLt zs xs) = false
        by_cases hyx : y < x
        · rw [if_pos hyx] at hba
          exact absurd hba (by simp)
        · rw [if_neg hyx] at hba
          by_cases hzy : z < y
          · rw [if_pos hzy] at hcb
            exact absurd hcb (by simp)
          · rw [if_neg hzy] at hcb
            have hxy : x ≤ y := le_of_not_lt hyx
            have hyz : y ≤ z := le_of_not_lt hzy
            have hxz : x ≤ z := le_trans hxy hyz
            rw [if_neg (not_lt_of_le hxz)]
            by_cases hxz2 : x < z
            · rw [if_pos hxz2]
            · rw [if_neg hxz2]
              have hzx : z ≤ x := le_of_not_lt hxz2
              obtain rfl : x = y := le_antisymm hxy (le_trans hyz hzx)
              obtain rfl : x = z := le_antisymm hxz hzx
              rw [if_neg (lt_irrefl x)] at hba hcb
              exact ih ys zs hba hcb

/-- Adding zero further occurrences leaves a camera count unchanged. -/
theorem addCount_zero : ∀ o : Option ℕ, addCount o 0 = o
  | none => rfl
  | some m => by simp [addCount]

/-- `minStep` always returns a candidate. -/
theorem minStep_ne_none (acc : Option String) (s : String) : minStep acc s ≠ none := by
  cases acc with
  | none => simp [minStep]
  | some m =>
    show ¬(if jsStrLt s m = true then some s else some m) = none
    split <;> simp

/-- `maxStep` always returns a candidate. -/
theorem maxStep_ne_none (acc : Option String) (s : String) : maxStep acc s ≠ none := by
  cases acc with
  | none => simp [maxStep]
  | some m =>
    show ¬(if jsStrLt m s = true then some s else some m) = none
    split <;> simp

/-- `gpsStep` changes only the GPS counter, by the truthiness of both
coordinates. -/
theorem gpsStep_spec (acc : BatchSummary) (d : ExifFields) :
    (gpsStep acc d).totalFiles = acc.totalFiles ∧
    (gpsStep acc d).successful = acc.successful ∧
    (gpsStep acc d).errors = acc.errors ∧
    (gpsStep acc d).cameras = acc.cameras ∧
    (gpsStep acc d).earliest = acc.earliest ∧
    (gpsStep acc d).latest = acc.latest ∧
    (gpsStep acc d).withGPS = acc.withGPS +
      (if (truthyNum d.latitude && truthyNum d.longitude) = true then 1 else 0) := by
  unfold gpsStep
  by_cases h : (truthyNum d.latitude && truthyNum d.longitude) = true
  · rw [if_pos h, if_pos h]
    exact ⟨rfl, rfl, rfl, rfl, rfl, rfl, rfl⟩
  · rw [if_neg h, if_neg h]
    exact ⟨rfl, rfl, rfl, rfl, rfl, rfl, (Nat.add_zero _).symm⟩

/-- `cameraStep` changes only the camera table, bumping the camera key. -/
theorem cameraStep_spec (acc : BatchSummary) (d : ExifFields) :
    (cameraStep acc d).totalFiles = acc.totalFiles ∧
    (cameraStep acc d).successful = acc.successful ∧
    (cameraStep acc d).errors = acc.errors ∧
    (cameraStep acc d).withGPS = acc.withGPS ∧
    (cameraStep acc d).earliest = acc.earliest ∧
    (cameraStep acc d).latest = acc.latest ∧
    (cameraStep acc d).cameras = bumpCamera (cameraKey d) acc.cameras :=
  ⟨rfl, rfl, rfl, rfl, rfl, rfl, rfl⟩

/-- `dateStep` changes only the date range, folding the truthy date string
into both ends. -/
theorem dateStep_spec (acc : BatchSummary) (d : ExifFields) :
    (dateStep acc d).totalFiles = acc.totalFiles ∧
    (dateStep acc d).successful = acc.successful ∧
    (dateStep acc d).errors = acc.errors ∧
    (dateStep acc d).withGPS = acc.withGPS ∧
    (dateStep acc d).cameras = acc.cameras ∧
    (dateStep acc d).earliest = (match fieldDate d with
      | some ds => minStep acc.earliest ds
      | none => acc.earliest) ∧
    (dateStep acc d).latest = (match fieldDate d with
      | some ds => maxStep acc.latest ds
      | none => acc.latest) := by
  unfold dateStep fieldDate
  cases hj : jsOr d.DateTimeOriginal d.DateTime with
  | none => exact ⟨rfl, rfl, rfl, rfl, rfl, rfl, rfl⟩
  | some ds =>
    dsimp only
    by_cases hds : ds ≠ ""
    · rw [if_pos hds, if_pos hds]
      exact ⟨rfl, rfl, rfl, rfl, rfl, rfl, rfl⟩
    · rw [if_neg hds, if_neg hds]
      exact ⟨rfl, rfl, rfl, rfl, rfl, rfl, rfl⟩

/-- One `forEach` iteration of the summarizer, in terms of the accumulator. -/
theorem summaryStep_spec (acc : BatchSummary) (r : BatchResult) :
    (summaryStep acc r).totalFiles = acc.totalFiles ∧
    (summaryStep acc r).successful = acc.successful ∧
    (summaryStep acc r).errors = acc.errors ∧
    (summaryStep acc r).withGPS = acc.withGPS + (match r.status, r.exifData with
      | .success, some d =>
        if (truthyNum d.latitude && truthyNum d.longitude) = true then 1 else 0
      | _, _ => 0) ∧
    (summaryStep acc r).cameras = (match r.status, r.exifData with
      | .success, some d => bumpCamera (cameraKey d) acc.cameras
      | _, _ => acc.cameras) ∧
    (summaryStep acc r).earliest = (match dateStrOf r with
      | some ds => minStep acc.earliest ds
      | none => acc.earliest) ∧
    (summaryStep acc r).latest = (match dateStrOf r with
      | some ds => maxStep acc.latest ds
      | none => acc.latest) := by
  rcases r with ⟨f, st, ed⟩
  cases st with
  | success =>
    cases ed with
    | none => exact ⟨rfl, rfl, rfl, (Nat.add_zero _).symm, rfl, rfl, rfl⟩
    | some d =>
      obtain ⟨g1, g2, g3, g4, g5, g6, g7⟩ := gpsStep_spec acc d
      obtain ⟨c1, c2, c3, c4, c5, c6, c7⟩ := cameraStep_spec (gpsStep acc d) d
      obtain ⟨d1, d2, d3, d4, d5, d6, d7⟩ :=
        dateStep_spec (cameraStep (gpsStep acc d) d) d
      refine ⟨?_, ?_, ?_, ?_, ?_, ?_, ?_⟩
      · show (dateStep (cameraStep (gpsStep acc d) d) d).totalFiles = acc.totalFiles
        rw [d1, c1, g1]
      · show (dateStep (cameraStep (gpsStep acc d) d) d).successful = acc.successful
        rw [d2, c2, g2]
      · show (dateStep (cameraStep (gpsStep acc d) d) d).errors = acc.errors
        rw [d3, c3, g3]
      · show (dateStep (cameraStep (gpsStep acc d) d) d).withGPS = acc.withGPS +
          (if (truthyNum d.latitude && truthyNum d.longitude) = true then 1 else 0)
        rw [d4, c4, g7]
      · show (dateStep (cameraStep (gpsStep acc d) d) d).cameras
          = bumpCamera (cameraKey d) acc.cameras
        rw [d5, c7, g4]
      · show (dateStep (cameraStep (gpsStep acc d) d) d).earliest
          = (match fieldDate d with
            | some ds => minStep acc.earliest ds
            | none => acc.earliest)
        rw [d6]
        simp only [c5, g5]
      · show (dateStep (cameraStep (gpsStep acc d) d) d).latest
          = (match fieldDate d with
            | some ds => maxStep acc.latest ds
            | none => acc.latest)
        rw [d7]
        simp only [c6, g6]
  | error =>
    cases ed with
    | none => exact ⟨rfl, rfl, rfl, (Nat.add_zero _).symm, rfl, rfl, rfl⟩
    | some d => exact ⟨rfl, rfl, rfl, (Nat.add_zero _).symm, rfl, rfl, rfl⟩

/-- `contributing` keeps exactly the successful results with metadata. -/
theorem contributing_cons (r : BatchResult) (rest : List BatchResult) :
    contributing (r :: rest) = (match r.status, r.exifData with
      | .success, some d => d :: contributing rest
      | _, _ => contributing rest) := by
  unfold contributing
  rw [List.filterMap_cons]
  rcases r with ⟨f, st, ed⟩
  cases st <;> cases ed <;> rfl

/-- The summarizer's `forEach`, decomposed field by field: the counters are
untouched, the GPS count adds the doubly-truthy contributing files, the camera
table folds `bumpCamera` over the contributing files, and the date range folds
`minStep`/`maxStep` over the truthy date strings. -/
theorem foldl_summaryStep_spec : ∀ (results : List BatchResult) (acc : BatchSummary),
    (results.foldl summaryStep acc).totalFiles = acc.totalFiles ∧
    (results.foldl summaryStep acc).successful = acc.successful ∧
    (results.foldl summaryStep acc).errors = acc.errors ∧
    (results.foldl summaryStep acc).withGPS = acc.withGPS +
      ((contributing results).filter
        fun d => truthyNum d.latitude && truthyNum d.longitude).length ∧
    (results.foldl summaryStep acc).cameras
      = (contributing results).foldl (fun t d => bumpCamera (cameraKey d) t) acc.cameras ∧
    (results.foldl summaryStep acc).earliest
      = (results.filterMap dateStrOf).foldl minStep acc.earliest ∧
    (results.foldl summaryStep acc).latest
      = (results.filterMap dateStrOf).foldl maxStep acc.latest := by
  intro results
  induction results with
  | nil =>
    intro acc
    exact ⟨rfl, rfl, rfl, (Nat.add_zero _).symm, rfl, rfl, rfl⟩
  | cons r rest ih =>
    intro acc
    obtain ⟨s1, s2, s3, s4, s5, s6, s7⟩ := summaryStep_spec acc r
    obtain ⟨i1, i2, i3, i4, i5, i6, i7⟩ := ih (summaryStep acc r)
    rw [List.foldl_cons]
    refine ⟨?_, ?_, ?_, ?_, ?_, ?_, ?_⟩
    · rw [i1, s1]
    · rw [i2, s2]
    · rw [i3, s3]
    · rw [i4, s4, contributing_cons]
      rcases r with ⟨f, st, ed⟩
      cases st with
      | success =>
        cases ed with
        | none => dsimp only; omega
        | some d =>
          dsimp only
          rw [List.filter_cons]
          by_cases hc : (truthyNum d.latitude && truthyNum d.longitude) = true
          · simp only [hc, if_true, List.length_cons]
            omega
          · simp only [hc, if_false, Bool.false_eq_true]
            omega
      | error =>
        cases ed with
        | none => dsimp only; omega
        | some d => dsimp only; omega
    · rw [i5, s5, contributing_cons]
      rcases r with ⟨f, st, ed⟩
      cases st with
      | success =>
        cases ed with
        | none => rfl
        | some d => rfl
      | error =>
        cases ed with
        | none => rfl
        | some d => rfl
    · rw [i6, s6, List.filterMap_cons]
      cases dateStrOf r with
      | none => rfl
      | some ds => rfl
    · rw [i7, s7, List.filterMap_cons]
      cases dateStrOf r with
      | none => rfl
      | some ds => rfl

/-- Folding `minStep` yields `none` only from an empty fold, and otherwise an
element not lexically above any date seen (the accumulator included). -/
theorem foldl_minStep_spec : ∀ (l : List String) (acc : Option String),
    (l.foldl minStep acc = none ↔ acc = none ∧ l = []) ∧
    ∀ e, l.foldl minStep acc = some e →
      (e ∈ l ∨ acc = some e) ∧
      (∀ s ∈ l, jsStrLt s e = false) ∧
      (∀ m, acc = some m → jsStrLt m e = false) := by
  intro l
  induction l with
  | nil =>
    intro acc
    constructor
    · simp
    · intro e he
      refine ⟨Or.inr he, by simp, ?_⟩
      intro m hm
      have h2 : acc = some e := he
      rw [hm] at h2
      obtain rfl : e = m := (Option.some.inj h2).symm
      exact charListLt_irrefl e.data
  | cons s rest ih =>
    intro acc
    obtain ⟨ihn, ihs⟩ := ih (minStep acc s)
    constructor
    · rw [List.foldl_cons, ihn]
      constructor
      · rintro ⟨h1, -⟩
        exact absurd h1 (minStep_ne_none acc s)
      · rintro ⟨-, h2⟩
        exact absurd h2 (List.cons_ne_nil s rest)
    · intro e he
      rw [List.foldl_cons] at he
      obtain ⟨hmem, hall, hacc⟩ := ihs e he
      have hse : jsStrLt s e = false := by
        cases acc with
        | none => exact hacc s rfl
        | some m =>
          show charListLt s.data e.data = false
          by_cases hsm : jsStrLt s m = true
          · have : minStep (some m) s = some s := by
              show (if jsStrLt s m = true then some s else some m) = some s
              rw [if_pos hsm]
            exact hacc s this
          · have hsm' : charListLt s.data m.data = false := by
              cases h2 : jsStrLt s m with
              | false => exact h2
              | true => exact absurd h2 hsm
            have hme : charListLt m.data e.data = false := by
              refine hacc m ?_
              show (if jsStrLt s m = true then some s else some m) = some m
              rw [if_neg hsm]
            exact charListLt_ge_trans e.data m.data s.data hme hsm'
      refine ⟨?_, ?_, ?_⟩
      · rcases hmem with h | h
        · exact Or.inl (List.mem_cons_of_mem s h)
        · cases acc with
          | none =>
            obtain rfl : s = e := Option.some.inj h
            exact Or.inl (List.mem_cons_self s rest)
          | some m =>
            revert h
            show (if jsStrLt s m = true then some s else some m) = some e → _
            intro h
            by_cases hsm : jsStrLt s m = true
            · rw [if_pos hsm] at h
              obtain rfl : s = e := Option.some.inj h
              exact Or.inl (List.mem_cons_self s rest)
            · rw [if_neg hsm] at h
              exact Or.inr (congrArg some (Option.some.inj h))
      · intro t ht
        rcases List.mem_cons.mp ht with rfl | ht'
        · exact hse
        · exact hall t ht'
      · intro m hm
        subst hm
        by_cases hsm : jsStrLt s m = true
        · have hkept : minStep (some m) s = some s := by
            show (if jsStrLt s m = true then some s else some m) = some s
            rw [if_pos hsm]
          have hse2 : charListLt s.data e.data = false := hacc s hkept
          have hms : charListLt m.data s.data = false :=
            charListLt_asymm s.data m.data hsm
          exact charListLt_ge_trans e.data s.data m.data hse2 hms
        · refine hacc m ?_
          show (if jsStrLt s m = true then some s else some m) = some m
          rw [if_neg hsm]

/-- Folding `maxStep` yields `none` only from an empty fold, and otherwise an
element not lexically below any date seen (the accumulator included). -/
theorem foldl_maxStep_spec : ∀ (l : List String) (acc : Option String),
    (l.foldl maxStep acc = none ↔ acc = none ∧ l = []) ∧
    ∀ e, l.foldl maxStep acc = some e →
      (e ∈ l ∨ acc = some e) ∧
      (∀ s ∈ l, jsStrLt e s = false) ∧
      (∀ m, acc = some m → jsStrLt e m = false) := by
  intro l
  induction l with
  | nil =>
    intro acc
    constructor
    · simp
    · intro e he
      refine ⟨Or.inr he, by simp, ?_⟩
      intro m hm
      have h2 : acc = some e := he
      rw [hm] at h2
      obtain rfl : e = m := (Option.some.inj h2).symm
      exact charListLt_irrefl e.data
  | cons s rest ih =>
    intro acc
    obtain ⟨ihn, ihs⟩ := ih (maxStep acc s)
    constructor
    · rw [List.foldl_cons, ihn]
      constructor
      · rintro ⟨h1, -⟩
        exact absurd h1 (maxStep_ne_none acc s)
      · rintro ⟨-, h2⟩
        exact absurd h2 (List.cons_ne_nil s rest)
    · intro e he
      rw [List.foldl_cons] at he
      obtain ⟨hmem, hall, hacc⟩ := ihs e he
      have hes : jsStrLt e s = false := by
        cases acc with
        | none => exact hacc s rfl
        | some m =>
          show charListLt e.data s.data = false
          by_cases hms : jsStrLt m s = true
          · have : maxStep (some m) s = some s := by
              show (if jsStrLt m s = true then some s else some m) = some s
              rw [if_pos hms]
            exact hacc s this
          · have hms' : charListLt m.data s.data = false := by
              cases h2 : jsStrLt m s with
              | false => exact h2
              | true => exact absurd h2 hms
            have hem : charListLt e.data m.data = false := by
              refine hacc m ?_
              show (if jsStrLt m s = true then some s else some m) = some m
              rw [if_neg hms]
            exact charListLt_ge_trans s.data m.data e.data hms' hem
      refine ⟨?_, ?_, ?_⟩
      · rcases hmem with h | h
        · exact Or.inl (List.mem_cons_of_mem s h)
        · cases acc with
          | none =>
            obtain rfl : s = e := Option.some.inj h
            exact Or.inl (List.mem_cons_self s rest)
          | some m =>
            revert h
            show (if jsStrLt m s = true then some s else some m) = some e → _
            intro h
            by_cases hms : jsStrLt m s = true
            · rw [if_pos hms] at h
              obtain rfl : s = e := Option.some.inj h
              exact Or.inl (List.mem_cons_self s rest)
            · rw [if_neg hms] at h
              exact Or.inr (congrArg some (Option.some.inj h))
      · intro t ht
        rcases List.mem_cons.mp ht with rfl | ht'
        · exact hes
        · exact hall t ht'
      · intro m hm
        subst hm
        by_cases hms : jsStrLt m s = true
        · have hkept : maxStep (some m) s = some s := by
            show (if jsStrLt m s = true then some s else some m) = some s
            rw [if_pos hms]
          have hes2 : charListLt e.data s.data = false := hacc s hkept
          have hsm : charListLt s.data m.data = false :=
            charListLt_asymm m.data s.data hms
          exact charListLt_ge_trans m.data s.data e.data hsm hes2
        · refine hacc m ?_
          show (if jsStrLt m s = true then some s else some m) = some m
          rw [if_neg hms]

/-- `bumpCamera` increments exactly the bumped key, appending it with count 1
when absent. -/
theorem lookup_bumpCamera (k q : String) : ∀ l : List (String × ℕ),
    List.lookup q (bumpCamera k l)
      = if q = k then some ((List.lookup k l).getD 0 + 1) else List.lookup q l := by
  intro l
  induction l with
  | nil =>
    have hb : bumpCamera k [] = [(k, 1)] := rfl
    rw [hb, lookup_cons_pair]
    by_cases h : q = k
    · rw [if_pos h, if_pos h]
      rfl
    · rw [if_neg h, if_neg h]
  | cons p rest ih =>
    rcases p with ⟨k2, n⟩
    by_cases h2 : k2 = k
    · subst h2
      have hb : bumpCamera k2 ((k2, n) :: rest) = (k2, n + 1) :: rest := by
        show (if k2 = k2 then (k2, n + 1) :: rest else (k2, n) :: bumpCamera k2 rest)
          = (k2, n + 1) :: rest
        rw [if_pos rfl]
      rw [hb, lookup_cons_pair, lookup_cons_pair, lookup_cons_pair, if_pos rfl]
      by_cases h : q = k2
      · rw [if_pos h, if_pos h]
        rfl
      · rw [if_neg h, if_neg h, if_neg h]
    · have hb : bumpCamera k ((k2, n) :: rest) = (k2, n) :: bumpCamera k rest := by
        show (if k2 = k then (k2, n + 1) :: rest else (k2, n) :: bumpCamera k rest)
          = (k2, n) :: bumpCamera k rest
        rw [if_neg h2]
      rw [hb, lookup_cons_pair, lookup_cons_pair, lookup_cons_pair, ih,
        if_neg (show ¬(k = k2) from fun hk => h2 hk.symm)]
      by_cases h : q = k2
      · subst h
        rw [if_pos rfl, if_neg h2, if_pos rfl]
      · rw [if_neg h, if_neg h]

/-- Folding `bumpCamera` over the camera keys counts each key's occurrences
on top of the starting table. -/
theorem lookup_foldl_bumpCamera (k : String) : ∀ (l : List ExifFields) (acc : List (String × ℕ)),
    List.lookup k (l.foldl (fun t d => bumpCamera (cameraKey d) t) acc)
      = addCount (List.lookup k acc) ((l.map cameraKey).count k) := by
  intro l
  induction l with
  | nil =>
    intro acc
    exact (addCount_zero _).symm
  | cons d rest ih =>
    intro acc
    rw [List.foldl_cons, ih (bumpCamera (cameraKey d) acc), List.map_cons,
      List.count_cons, lookup_bumpCamera]
    by_cases h : k = cameraKey d
    · have hbe : (cameraKey d == k) = true := beq_iff_eq.mpr h.symm
      rw [if_pos h, hbe, if_pos rfl, ← h]
      cases List.lookup k acc with
      | none =>
        show some (0 + 1 + ((rest.map cameraKey).count k))
          = some (((rest.map cameraKey).count k) + 1)
        congr 1
        omega
      | some m =>
        show some (m + 1 + ((rest.map cameraKey).count k))
          = some (m + (((rest.map cameraKey).count k) + 1))
        congr 1
        omega
    · have hbe : (cameraKey d == k) = false := beq_eq_false_iff_ne.mpr fun hh => h hh.symm
      rw [if_neg h, hbe]
      simp only [Bool.false_eq_true, if_false, Nat.add_zero]

/-- C9 counterexample: on `demoBatch`, both `b.jpg` (latitude 0, longitude 10)
and `c.jpg` (latitude 1, longitude 10) have GPS coordinates present, yet
`withGPS = 1`: latitude 0 is falsy, so `if (r.exifData.latitude && ...)` skips
it. And `a.jpg` is a successful file whose metadata object is missing — the
claim's reading buckets it as "Unknown", but `generateBatchSummary` skips it
entirely: the camera table has no "Unknown" entry at all. -/
theorem C9_counterexample :
    (generateBatchSummary demoBatch).successful = 3 ∧
    (demoBatch.map fun r => (r.exifData.map ExifFields.latitude))
      = [none, some (some 0), some (some 1)] ∧
    (generateBatchSummary demoBatch).withGPS = 1 ∧
    List.lookup "Unknown" (generateBatchSummary demoBatch).cameras = none ∧
    (generateBatchSummary demoBatch).cameras
      = [("Canon EOS R5", 1), ("Nikon Z9", 1)] := by
  refine ⟨rfl, rfl, rfl, ?_, rfl⟩
  decide

/-- C9 (amended): for every list of per-file outcomes, `generateBatchSummary`
reports the list length, the success and error counts, a GPS count of the
successful-with-metadata files whose latitude AND longitude are both truthy
(so latitude or longitude 0 is not counted), a camera table that counts
`"{make} {model}"` keys — files with falsy make or model bucketed as
"Unknown", but only over successful files that carry a metadata object, the
rest skipped — and the lexical min/max (JS string `<` / `>`) of the truthy
date strings `DateTimeOriginal || DateTime` of those same files. -/
theorem C9_amended_batch (results : List BatchResult) :
    (generateBatchSummary results).totalFiles = results.length ∧
    (generateBatchSummary results).successful
      = (results.filter fun r => r.status == .success).length ∧
    (generateBatchSummary results).errors
      = (results.filter fun r => r.status == .error).length ∧
    (generateBatchSummary results).withGPS
      = ((contributing results).filter
          fun d => truthyNum d.latitude && truthyNum d.longitude).length ∧
    (∀ k : String, List.lookup k (generateBatchSummary results).cameras
      = addCount none (((contributing results).map cameraKey).count k)) ∧
    ((generateBatchSummary results).earliest = none ↔ results.filterMap dateStrOf = []) ∧
    (∀ e, (generateBatchSummary results).earliest = some e →
      e ∈ results.filterMap dateStrOf ∧
      ∀ s ∈ results.filterMap dateStrOf, jsStrLt s e = false) ∧
    ((generateBatchSummary results).latest = none ↔ results.filterMap dateStrOf = []) ∧
    (∀ e, (generateBatchSummary results).latest = some e →
      e ∈ results.filterMap dateStrOf ∧
      ∀ s ∈ results.filterMap dateStrOf, jsStrLt e s = false) := by
  obtain ⟨f1, f2, f3, f4, f5, f6, f7⟩ := foldl_summaryStep_spec results
    { totalFiles := results.length
      successful := (results.filter fun r => r.status == .success).length
      errors := (results.filter fun r => r.status == .error).length
      withGPS := 0
      cameras := []
      earliest := none
      latest := none }
  obtain ⟨mn, ms⟩ := foldl_minStep_spec (results.filterMap dateStrOf) none
  obtain ⟨xn, xs⟩ := foldl_maxStep_spec (results.filterMap dateStrOf) none
  refine ⟨f1, f2, f3, ?_, ?_, ?_, ?_, ?_, ?_⟩
  · rw [show (generateBatchSummary results).withGPS
      = 0 + ((contributing results).filter
          fun d => truthyNum d.latitude && truthyNum d.longitude).length from f4,
      Nat.zero_add]
  · intro k
    rw [show (generateBatchSummary results).cameras
        = (contributing results).foldl (fun t d => bumpCamera (cameraKey d) t) [] from f5,
      lookup_foldl_bumpCamera]
    rfl
  · rw [show (generateBatchSummary results).earliest
      = (results.filterMap dateStrOf).foldl minStep none from f6, mn]
    simp
  · intro e he
    rw [show (generateBatchSummary results).earliest
      = (results.filterMap dateStrOf).foldl minStep none from f6] at he
    obtain ⟨hmem, hall, -⟩ := ms e he
    refine ⟨?_, hall⟩
    rcases hmem with h | h
    · exact h
    · exact absurd h (by simp)
  · rw [show (generateBatchSummary results).latest
      = (results.filterMap dateStrOf).foldl maxStep none from f7, xn]
    simp
  · intro e he
    rw [show (generateBatchSummary results).latest
      = (results.filterMap dateStrOf).foldl maxStep none from f7] at he
    obtain ⟨hmem, hall, -⟩ := xs e he
    refine ⟨?_, hall⟩
    rcases hmem with h | h
    · exact h
    · exact absurd h (by simp)

/-- C9 witness: the spec's own example, three successful files with cameras
Canon EOS R5, Canon EOS R5, Nikon Z9, counted through the amended theorem. -/
theorem C9_witness :
    List.lookup "Canon EOS R5" (generateBatchSummary demoBatchCameras).cameras = some 2 ∧
    List.lookup "Nikon Z9" (generateBatchSummary demoBatchCameras).cameras = some 1 ∧
    List.lookup "Unknown" (generateBatchSummary demoBatchCameras).cameras = none ∧
    (generateBatchSummary demoBatchCameras).earliest = some "2020:01:01 00:00:00" ∧
    "2020:01:01 00:00:00" ∈ demoBatchCameras.filterMap dateStrOf ∧
    (∀ s ∈ demoBatchCameras.filterMap dateStrOf,
      jsStrLt s "2020:01:01 00:00:00" = false) := by
  obtain ⟨-, -, -, -, hcam, -, hear, -, -⟩ := C9_amended_batch demoBatchCameras
  have he : (generateBatchSummary demoBatchCameras).earliest
      = some "2020:01:01 00:00:00" := by decide
  obtain ⟨hmem, hmin⟩ := hear "2020:01:01 00:00:00" he
  refine ⟨?_, ?_, ?_, he, hmem, hmin⟩
  · rw [hcam "Canon EOS R5"]
    decide
  · rw [hcam "Nikon Z9"]
    decide
  · rw [hcam "Unknown"]
    decide

end ExifViewer
